import Mathlib

/-!
# Verification of the `cjson` single-header JSON library

A shallow embedding of `src/cjson.h` (lexer, recursive-descent parser, value
model, dynamic array, hash-chained object map, object iterator, path accessor
and serializer), together with theorems settling the specification claims.

Modelling conventions:
* A C string is a `List Char` (the bytes before the terminating NUL);
  reading the terminator is modelled by `charAt` returning `'\x00'` past the
  end.  Wherever the C code could read *past* the terminator (an out-of-bounds
  read, undefined behavior), the model returns a distinguished `none` /
  `ub`-style result instead of a value.
* `cjson_element *` values that may be NULL are `Option CElem`.
* The element struct stores its discriminant and its payload separately, as
  the C struct does, so a mismatch between tag and payload (which the C code
  can produce) is representable.
* C `double` is modelled by `Rat`; every concrete value exercised here
  (`1.5`) is exactly representable in both, so no rounding questions arise.
* Machine integers use `Int` with an explicit wrap to 32 bits where the C
  code stores a `long` into an `int`.
* Recursive C functions are given an explicit fuel argument; fuel exhaustion
  yields `none` and the theorems always supply sufficient fuel.
-/

namespace CJson

/-- The bytes of a C string, excluding the terminating NUL. -/
abbrev Chars := List Char

/-- Reading `s[i]` from a NUL-terminated buffer: positions past the end of
the payload read as the terminator.  (Reads beyond the terminator are
undefined behavior in C; the scanning loops below stop before modelling such
a read, or return a distinguished failure.) -/
def charAt (s : Chars) (i : Nat) : Char := s.getD i '\x00'

/-- `isdigit` restricted to ASCII, as used by the lexer. -/
def isDigitC (c : Char) : Bool := '0' ≤ c && c ≤ '9'

/-- `isspace` for the ASCII whitespace class. -/
def isSpaceC (c : Char) : Bool :=
  c = ' ' || c = '\t' || c = '\n' || c = '\x0b' || c = '\x0c' || c = '\r'

/-- `isalpha` restricted to ASCII. -/
def isAlphaC (c : Char) : Bool :=
  ('a' ≤ c && c ≤ 'z') || ('A' ≤ c && c ≤ 'Z')

/-- Identifier-continuation characters accepted by `strspn` in
`cjson_get_element_from_object`. -/
def isIdentC (c : Char) : Bool := isAlphaC c || isDigitC c || c = '_'

/-- Storing a C `long` into an `int`: wrap to 32-bit two's complement. -/
def toInt32 (n : Int) : Int := (n + 2 ^ 31) % 2 ^ 32 - 2 ^ 31

/-- The discriminant of `cjson_element` (`element_type`). -/
inductive CTag where
  | tNULL | tBOOL | tINTEGER | tFLOAT | tSTRING | tARRAY | tOBJECT
deriving DecidableEq, Repr

/-- The `cjson_value` union.  `vNone` is the zeroed state produced by
`calloc` before any member is written (used by the `CJSON_NULL` variant).
The payload is stored independently of the tag, exactly as in the C union,
so a tag/payload mismatch is representable.  An object's payload is its
bucket array; the map's `capacity` field always equals the number of
allocated buckets, so it is the list length here. -/
inductive CVal (ε : Type) where
  | vNone
  | vBool (b : Bool)
  | vInt (n : Int)
  | vFloat (q : Rat)
  | vString (s : Option Chars)
  | vArray (elements : List (Option ε))
  | vObject (buckets : List (List (Chars × Option ε)))

/-- One `cjson_element`: a tag plus the union payload. -/
inductive CElem where
  | mk (tag : CTag) (val : CVal CElem)

/-- The `element_type` field. -/
def CElem.tag : CElem → CTag
  | .mk t _ => t

/-- The `value` field. -/
def CElem.val : CElem → CVal CElem
  | .mk _ v => v

/-- A bucket of the object map: the chain of `cjson_map_item` nodes,
head first. -/
abbrev Bucket := List (Chars × Option CElem)

/-- The bucket array of a `cjson_map`; `capacity` is its length. -/
abbrev CMapT := List Bucket

/-! ## Value constructors and predicates (§ value model) -/

/-- `cjson_create_bool`. -/
def cjson_create_bool (b : Bool) : CElem := .mk .tBOOL (.vBool b)

/-- `cjson_create_integer`. -/
def cjson_create_integer (n : Int) : CElem := .mk .tINTEGER (.vInt n)

/-- `cjson_create_float`. -/
def cjson_create_float (q : Rat) : CElem := .mk .tFLOAT (.vFloat q)

/-- `cjson_create_string` (the input text is duplicated; value copying is
implicit here). -/
def cjson_create_string (s : Chars) : CElem := .mk .tSTRING (.vString (some s))

/-- `cjson_create_array`. -/
def cjson_create_array : CElem := .mk .tARRAY (.vArray [])

/-- `cjson_create_object`: a map with `capacity` empty buckets. -/
def cjson_create_object (capacity : Nat) : CElem :=
  .mk .tOBJECT (.vObject (List.replicate capacity []))

/-- `cjson_create_null` (the union stays zeroed). -/
def cjson_create_null : CElem := .mk .tNULL .vNone

/-- `cjson_is_bool`. -/
def cjson_is_bool (e : CElem) : Bool := e.tag = .tBOOL

/-- `cjson_is_integer`. -/
def cjson_is_integer (e : CElem) : Bool := e.tag = .tINTEGER

/-- `cjson_is_float`. -/
def cjson_is_float (e : CElem) : Bool := e.tag = .tFLOAT

/-- `cjson_is_string`. -/
def cjson_is_string (e : CElem) : Bool := e.tag = .tSTRING

/-- `cjson_is_array`. -/
def cjson_is_array (e : CElem) : Bool := e.tag = .tARRAY

/-- `cjson_is_object`. -/
def cjson_is_object (e : CElem) : Bool := e.tag = .tOBJECT

/-- `cjson_is_null`. -/
def cjson_is_null (e : CElem) : Bool := e.tag = .tNULL

/-! ## Array container -/

/-- `cjson_array_append`: capacity growth does not affect the stored
sequence, so the array is its element list. -/
def cjson_array_append (arr : List (Option CElem)) (e : Option CElem) :
    List (Option CElem) :=
  arr ++ [e]

/-- The three-assignment swap of `elements[i]` and `elements[j]` inside
`cjson_array_insert` (both reads happen before the writes). -/
def swapAt2 (l : List (Option CElem)) (i j : Nat) : List (Option CElem) :=
  match l[i]?, l[j]? with
  | some a, some b => (l.set i b).set j a
  | _, _ => l

/-- The `while (current > index)` bubble loop of `cjson_array_insert`
(structural recursion on `current`; a zero cursor ends the loop since no
index is below it). -/
def insertShiftLoop : List (Option CElem) → Nat → Nat → List (Option CElem)
  | l, 0, _ => l
  | l, c + 1, index =>
    if index < c + 1 then insertShiftLoop (swapAt2 l c (c + 1)) c index else l

theorem insertShiftLoop_eq (l : List (Option CElem)) (c index : Nat) :
    insertShiftLoop l c index =
      if index < c then
        insertShiftLoop (swapAt2 l (c - 1) c) (c - 1) index
      else l := by
  cases c with
  | zero => simp [insertShiftLoop]
  | succ c => rfl

/-- `cjson_array_insert`: append, then swap the new element down to
`index`. -/
def cjson_array_insert (arr : List (Option CElem)) (e : Option CElem)
    (index : Nat) : List (Option CElem) :=
  insertShiftLoop (cjson_array_append arr e) arr.length index

/-! ## Object map -/

/-- `cjson_hash`: `res = (res << 3) + str[i]` in `size_t` arithmetic.
(Names here are ASCII, so the signedness of `char` does not matter.) -/
def cjson_hash (name : Chars) : Nat :=
  name.foldl (fun r c => (r * 8 + c.toNat) % 2 ^ 64) 0

/-- The chain walk of `cjson_map_insert` when an entry with the name exists:
the first matching entry keeps its stored name and has its element replaced
(the old element is `cjson_delete`d, which only affects memory). -/
def chainReplace : Bucket → Chars → Option CElem → Bucket
  | [], _, _ => []
  | (n, old) :: rest, name, e =>
    if n = name then (n, e) :: rest
    else (n, old) :: chainReplace rest name e

/-- Whether the chain contains an entry with exactly this name
(`strcmp == 0`). -/
def chainHasName (b : Bucket) (name : Chars) : Bool :=
  b.any (fun p => p.1 = name)

/-- `cjson_map_insert`: hash mod capacity selects the bucket; a fresh name
is pushed at the head of the chain (with a copy of the name), an existing
entry has its element replaced. -/
def cjson_map_insert (m : CMapT) (name : Chars) (e : Option CElem) : CMapT :=
  if chainHasName (m.getD (cjson_hash name % m.length) []) name then
    m.set (cjson_hash name % m.length)
      (chainReplace (m.getD (cjson_hash name % m.length) []) name e)
  else
    m.set (cjson_hash name % m.length)
      ((name, e) :: m.getD (cjson_hash name % m.length) [])

/-- `cjson_object_get`: scan the hashed bucket for the first exact name
match; return its element pointer, or NULL when there is none.  (A stored
NULL element and a missing member produce the same result, as in C.) -/
def cjson_object_get (m : CMapT) (name : Chars) : Option CElem :=
  match (m.getD (cjson_hash name % m.length) []).find?
      (fun p => p.1 = name) with
  | some p => p.2
  | none => none

/-- `cjson_object_insert` forwards to `cjson_map_insert`. -/
def cjson_object_insert (m : CMapT) (name : Chars) (e : Option CElem) :
    CMapT :=
  cjson_map_insert m name e

end CJson

namespace CJson

/-! ## Array insert: supporting lemmas -/

theorem set_append_add {α : Type} (a b : List α) (i : Nat) (x : α) :
    (a ++ b).set (a.length + i) x = a ++ b.set i x := by
  induction a with
  | nil => simp
  | cons hd tl ih =>
    have h : tl.length + 1 + i = (tl.length + i) + 1 := by omega
    simp only [List.cons_append, List.length_cons, h, List.set_cons_succ, ih]

/-- One iteration of the bubble loop moves the inserted element one slot
toward the front. -/
theorem swapAt2_step (l : List (Option CElem)) (x : Option CElem) (m : Nat)
    (hm : m < l.length) :
    swapAt2 (l.take (m + 1) ++ x :: l.drop (m + 1)) m (m + 1)
      = l.take m ++ x :: l.drop m := by
  have htake : l.take (m + 1) = l.take m ++ [l[m]] := by
    rw [List.take_succ, List.getElem?_eq_getElem hm]
    rfl
  have hlen : (l.take m).length = m := by
    rw [List.length_take]; omega
  have hL : l.take (m + 1) ++ x :: l.drop (m + 1)
      = l.take m ++ (l[m] :: x :: l.drop (m + 1)) := by
    rw [htake, List.append_assoc]; rfl
  rw [hL]
  have h1 : (l.take m ++ (l[m] :: x :: l.drop (m + 1)))[m]? = some l[m] := by
    rw [List.getElem?_append_right (by omega)]
    simp [hlen]
  have h2 : (l.take m ++ (l[m] :: x :: l.drop (m + 1)))[m + 1]? = some x := by
    rw [List.getElem?_append_right (by omega)]
    simp [hlen]
  rw [swapAt2, h1, h2]
  have hs1 : (l.take m ++ (l[m] :: x :: l.drop (m + 1))).set m x
      = l.take m ++ (x :: x :: l.drop (m + 1)) := by
    have h := set_append_add (l.take m) (l[m] :: x :: l.drop (m + 1)) 0 x
    simpa [hlen] using h
  have hs2 : (l.take m ++ (x :: x :: l.drop (m + 1))).set (m + 1) l[m]
      = l.take m ++ (x :: l[m] :: l.drop (m + 1)) := by
    have h := set_append_add (l.take m) (x :: x :: l.drop (m + 1)) 1 l[m]
    simpa [hlen] using h
  show ((l.take m ++ (l[m] :: x :: l.drop (m + 1))).set m x).set (m + 1) l[m]
      = l.take m ++ x :: l.drop m
  rw [hs1, hs2, ← List.drop_eq_getElem_cons hm]

/-- Invariant of the bubble loop: starting from the appended state viewed at
cursor `idx + n`, the loop ends with the element at position `idx`. -/
theorem insertShiftLoop_take_drop (x : Option CElem) (idx : Nat) :
    ∀ (n : Nat) (l : List (Option CElem)), idx + n ≤ l.length →
      insertShiftLoop (l.take (idx + n) ++ x :: l.drop (idx + n)) (idx + n) idx
        = l.take idx ++ x :: l.drop idx := by
  intro n
  induction n with
  | zero =>
    intro l _
    rw [insertShiftLoop_eq, if_neg (by omega)]
    simp
  | succ n ih =>
    intro l h
    rw [insertShiftLoop_eq, if_pos (by omega : idx < idx + (n + 1))]
    have hm : idx + (n + 1) - 1 = idx + n := by omega
    rw [hm]
    have hstep := swapAt2_step l x (idx + n) (by omega)
    rw [show idx + (n + 1) = (idx + n) + 1 from rfl, hstep]
    exact ih l (by omega)

end CJson

namespace CJson

/-- **C5.** `cjson_array_insert` on an array of length `n` places the
element at position `index`, shifting the elements previously at positions
`index .. n-1` one slot toward the end; when `index ≥ n` it appends at the
end without shifting.  In particular, starting from an empty array,
`append 1, append 2, append 3, insert (-1) 0, insert 0 1, insert 5 5,
insert 4 5` yields the sequence `[-1, 0, 1, 2, 3, 4, 5]`. -/
theorem array_insert_places_and_shifts :
    (∀ (l : List (Option CElem)) (x : Option CElem) (index : Nat),
      cjson_array_insert l x index =
        if l.length ≤ index then l ++ [x]
        else l.take index ++ x :: l.drop index) ∧
    (cjson_array_insert (cjson_array_insert (cjson_array_insert
        (cjson_array_insert
          (cjson_array_append (cjson_array_append (cjson_array_append []
            (some (cjson_create_integer 1))) (some (cjson_create_integer 2)))
            (some (cjson_create_integer 3)))
          (some (cjson_create_integer (-1))) 0)
        (some (cjson_create_integer 0)) 1)
        (some (cjson_create_integer 5)) 5)
        (some (cjson_create_integer 4)) 5
      = [some (cjson_create_integer (-1)), some (cjson_create_integer 0),
         some (cjson_create_integer 1), some (cjson_create_integer 2),
         some (cjson_create_integer 3), some (cjson_create_integer 4),
         some (cjson_create_integer 5)]) := by
  constructor
  · intro l x index
    by_cases h : l.length ≤ index
    · rw [if_pos h]
      unfold cjson_array_insert cjson_array_append
      rw [insertShiftLoop_eq, if_neg (by omega)]
    · rw [if_neg h]
      obtain ⟨n, hn⟩ : ∃ n, l.length = index + n := ⟨l.length - index, by omega⟩
      unfold cjson_array_insert cjson_array_append
      have hiv := insertShiftLoop_take_drop x index n l (by omega)
      rw [show l ++ [x] = l.take (index + n) ++ x :: l.drop (index + n) by
        rw [← hn]; simp]
      rw [hn]
      exact hiv
  · rfl

end CJson

namespace CJson

/-! ## Object map: well-formedness and lemmas -/

/-- Well-formedness of a `cjson_map`, as maintained by `cjson_map_insert`:
each chain holds pairwise distinct names, and every entry sits in the bucket
selected by its name's hash. -/
def MapWF (m : CMapT) : Prop :=
  (∀ b ∈ m, (b.map Prod.fst).Nodup) ∧
  (∀ i, (_ : i < m.length) → ∀ p ∈ m.getD i [],
    cjson_hash p.1 % m.length = i)

theorem chainReplace_map_fst (b : Bucket) (name : Chars) (e : Option CElem) :
    (chainReplace b name e).map Prod.fst = b.map Prod.fst := by
  induction b with
  | nil => rfl
  | cons hd tl ih =>
    obtain ⟨n, old⟩ := hd
    by_cases h : n = name
    · simp [chainReplace, h]
    · simp [chainReplace, h, ih]

theorem find?_chainReplace (b : Bucket) (name : Chars) (e : Option CElem)
    (h : chainHasName b name = true) :
    ∃ p, (chainReplace b name e).find? (fun q => q.1 = name) = some p ∧
      p.2 = e := by
  induction b with
  | nil => simp [chainHasName] at h
  | cons hd tl ih =>
    obtain ⟨n, old⟩ := hd
    by_cases hn : n = name
    · refine ⟨(n, e), ?_, rfl⟩
      simp [chainReplace, hn, List.find?]
    · have h' : chainHasName tl name = true := by
        simpa [chainHasName, hn] using h
      obtain ⟨p, hp, he⟩ := ih h'
      refine ⟨p, ?_, he⟩
      simp only [chainReplace, if_neg hn]
      rw [List.find?_cons_of_neg _ (by simp [hn])]
      exact hp

theorem chainHasName_eq_false_iff (b : Bucket) (name : Chars) :
    chainHasName b name = false ↔ name ∉ b.map Prod.fst := by
  rw [chainHasName, List.any_eq_false]
  constructor
  · intro h hmem
    obtain ⟨p, hp, hfst⟩ := List.mem_map.mp hmem
    have hp' := h p hp
    simp [hfst] at hp'
  · intro h p hp
    simp only [decide_eq_true_eq]
    intro heq
    exact h (List.mem_map.mpr ⟨p, hp, heq⟩)

theorem getD_set_self (m : CMapT) (h : Nat) (b : Bucket)
    (hlt : h < m.length) : (m.set h b).getD h [] = b := by
  rw [List.getD_eq_getElem _ _ (by simpa using hlt), List.getElem_set_self]

theorem getD_set_ne (m : CMapT) (h j : Nat) (b : Bucket) (hne : h ≠ j) :
    (m.set h b).getD j [] = m.getD j [] := by
  by_cases hj : j < m.length
  · rw [List.getD_eq_getElem _ _ (by simpa using hj),
      List.getD_eq_getElem _ _ hj, List.getElem_set_ne hne]
  · rw [List.getD_eq_default _ _ (by simpa using Nat.le_of_not_lt hj),
      List.getD_eq_default _ _ (Nat.le_of_not_lt hj)]

/-- Lookup after insert returns exactly the just-inserted element pointer. -/
theorem object_get_after_insert (m : CMapT) (name : Chars) (e : Option CElem)
    (hcap : 0 < m.length) :
    cjson_object_get (cjson_map_insert m name e) name = e := by
  have hh : cjson_hash name % m.length < m.length := Nat.mod_lt _ hcap
  unfold cjson_object_get cjson_map_insert
  by_cases hc : chainHasName (m.getD (cjson_hash name % m.length) []) name
  · rw [if_pos hc]
    simp only [List.length_set]
    rw [getD_set_self _ _ _ hh]
    obtain ⟨p, hp, he⟩ :=
      find?_chainReplace (m.getD (cjson_hash name % m.length) []) name e hc
    rw [hp]
    exact he
  · rw [if_neg hc]
    simp only [List.length_set]
    rw [getD_set_self _ _ _ hh]
    rw [List.find?_cons_of_pos _ (by simp)]

end CJson

namespace CJson

theorem length_map_insert (m : CMapT) (name : Chars) (e : Option CElem) :
    (cjson_map_insert m name e).length = m.length := by
  unfold cjson_map_insert
  split <;> simp

theorem mem_fst_of_mem_chainReplace {b : Bucket} {name : Chars}
    {e : Option CElem} {p : Chars × Option CElem}
    (hp : p ∈ chainReplace b name e) : p.1 ∈ b.map Prod.fst := by
  rw [← chainReplace_map_fst b name e]
  exact List.mem_map_of_mem _ hp

/-- `cjson_map_insert` preserves the map invariant. -/
theorem mapWF_insert (m : CMapT) (name : Chars) (e : Option CElem)
    (hcap : 0 < m.length) (hwf : MapWF m) :
    MapWF (cjson_map_insert m name e) := by
  obtain ⟨hnd, hplace⟩ := hwf
  have hh : cjson_hash name % m.length < m.length := Nat.mod_lt _ hcap
  unfold cjson_map_insert
  by_cases hc : chainHasName (m.getD (cjson_hash name % m.length) []) name
  · rw [if_pos hc]
    constructor
    · intro b hb
      obtain ⟨j, hj, hbj⟩ := List.mem_iff_getElem.mp hb
      rw [List.length_set] at hj
      by_cases hji : j = cjson_hash name % m.length
      · subst hji
        rw [List.getElem_set_self] at hbj
        rw [← hbj, chainReplace_map_fst]
        apply hnd
        rw [List.getD_eq_getElem _ _ hh]
        exact List.getElem_mem _
      · rw [List.getElem_set_ne (fun hx => hji hx.symm)] at hbj
        rw [← hbj]
        exact hnd _ (List.getElem_mem _)
    · intro i hi p hp
      simp only [List.length_set] at hi hp ⊢
      by_cases hih : i = cjson_hash name % m.length
      · subst hih
        rw [getD_set_self _ _ _ hh] at hp
        obtain ⟨q, hq, hq1⟩ := List.mem_map.mp (mem_fst_of_mem_chainReplace hp)
        rw [← hq1]
        exact hplace _ hh q hq
      · rw [getD_set_ne _ _ _ _ (fun hx => hih hx.symm)] at hp
        exact hplace i hi p hp
  · rw [if_neg hc]
    constructor
    · intro b hb
      obtain ⟨j, hj, hbj⟩ := List.mem_iff_getElem.mp hb
      rw [List.length_set] at hj
      by_cases hji : j = cjson_hash name % m.length
      · subst hji
        rw [List.getElem_set_self] at hbj
        rw [← hbj]
        simp only [List.map_cons, List.nodup_cons]
        refine ⟨(chainHasName_eq_false_iff _ _).mp (Bool.of_not_eq_true hc), ?_⟩
        apply hnd
        rw [List.getD_eq_getElem _ _ hh]
        exact List.getElem_mem _
      · rw [List.getElem_set_ne (fun hx => hji hx.symm)] at hbj
        rw [← hbj]
        exact hnd _ (List.getElem_mem _)
    · intro i hi p hp
      simp only [List.length_set] at hi hp ⊢
      by_cases hih : i = cjson_hash name % m.length
      · subst hih
        rw [getD_set_self _ _ _ hh] at hp
        rcases List.mem_cons.mp hp with heq | htl
        · rw [heq]
        · exact hplace _ hh p htl
      · rw [getD_set_ne _ _ _ _ (fun hx => hih hx.symm)] at hp
        exact hplace i hi p hp

/-- A well-formed map has pairwise distinct member names overall: entries in
one bucket have distinct names, and two buckets cannot share a name because
each name hashes to a single bucket. -/
theorem mapWF_flatten_nodup (m : CMapT) (hwf : MapWF m) :
    (m.flatten.map Prod.fst).Nodup := by
  obtain ⟨hnd, hplace⟩ := hwf
  rw [List.map_flatten, List.nodup_flatten]
  constructor
  · intro l hl
    obtain ⟨b, hb, hbl⟩ := List.mem_map.mp hl
    rw [← hbl]
    exact hnd b hb
  · rw [List.pairwise_iff_getElem]
    intro i j hi hj hij a hai haj
    rw [List.length_map] at hi hj
    rw [List.getElem_map] at hai haj
    obtain ⟨p, hp, hp1⟩ := List.mem_map.mp hai
    obtain ⟨q, hq, hq1⟩ := List.mem_map.mp haj
    have hpi : cjson_hash a % m.length = i := by
      rw [← hp1]
      exact hplace i hi p (by rw [List.getD_eq_getElem _ _ hi]; exact hp)
    have hqj : cjson_hash a % m.length = j := by
      rw [← hq1]
      exact hplace j hj q (by rw [List.getD_eq_getElem _ _ hj]; exact hq)
    omega

theorem find?_of_mem_nodup (b : Bucket) (name : Chars) (e : Option CElem)
    (hmem : (name, e) ∈ b) (hnd : (b.map Prod.fst).Nodup) :
    b.find? (fun p => p.1 = name) = some (name, e) := by
  induction b with
  | nil => cases hmem
  | cons hd tl ih =>
    obtain ⟨n, x⟩ := hd
    simp only [List.map_cons, List.nodup_cons] at hnd
    by_cases hn : n = name
    · subst hn
      rw [List.find?_cons_of_pos _ (by simp)]
      rcases List.mem_cons.mp hmem with heq | htl
      · injection heq with h1 h2
        rw [h2]
      · exact absurd (List.mem_map_of_mem Prod.fst htl) hnd.1
    · rw [List.find?_cons_of_neg _ (by simp [hn])]
      apply ih ?_ hnd.2
      rcases List.mem_cons.mp hmem with heq | htl
      · injection heq with h1 _
        exact absurd h1.symm hn
      · exact htl

end CJson

namespace CJson

/-- **C6.** Inserting under a name that already has an entry replaces that
entry's element while keeping the stored name; member names remain unique
within the map; a lookup after inserting the same name twice returns only
the second value; inserting under a fresh name pushes a new entry at the
head of its bucket's chain. -/
theorem map_insert_replace_and_push (m : CMapT) (name : Chars)
    (e e1 e2 : Option CElem) (hcap : 0 < m.length) (hwf : MapWF m) :
    MapWF (cjson_map_insert m name e) ∧
    ((cjson_map_insert m name e).flatten.map Prod.fst).Nodup ∧
    cjson_object_get (cjson_map_insert m name e) name = e ∧
    cjson_object_get
      (cjson_map_insert (cjson_map_insert m name e1) name e2) name = e2 ∧
    (chainHasName (m.getD (cjson_hash name % m.length) []) name = true →
      ((cjson_map_insert m name e).getD
          (cjson_hash name % m.length) []).map Prod.fst
        = (m.getD (cjson_hash name % m.length) []).map Prod.fst) ∧
    (chainHasName (m.getD (cjson_hash name % m.length) []) name = false →
      (cjson_map_insert m name e).getD (cjson_hash name % m.length) []
        = (name, e) :: m.getD (cjson_hash name % m.length) []) := by
  have hh : cjson_hash name % m.length < m.length := Nat.mod_lt _ hcap
  refine ⟨mapWF_insert m name e hcap hwf,
    mapWF_flatten_nodup _ (mapWF_insert m name e hcap hwf),
    object_get_after_insert m name e hcap,
    object_get_after_insert _ name e2 (by rw [length_map_insert]; exact hcap),
    ?_, ?_⟩
  · intro hc
    unfold cjson_map_insert
    rw [if_pos hc, getD_set_self _ _ _ hh, chainReplace_map_fst]
  · intro hc
    unfold cjson_map_insert
    rw [hc]
    simp only [Bool.false_eq_true, if_false]
    rw [getD_set_self _ _ _ hh]

/-- **C6 witness**: a concrete two-bucket map with one entry. -/
theorem map_insert_replace_and_push_witness :
    cjson_object_get
      (cjson_map_insert
        (cjson_map_insert [[], [(['a'], some (cjson_create_integer 7))]]
          ['a'] (some (cjson_create_integer 1)))
        ['a'] (some (cjson_create_integer 2))) ['a']
      = some (cjson_create_integer 2) :=
  (map_insert_replace_and_push
    [[], [(['a'], some (cjson_create_integer 7))]] ['a']
    (some (cjson_create_integer 7))
    (some (cjson_create_integer 1)) (some (cjson_create_integer 2))
    (by decide)
    (by constructor
        · decide
        · intro i hi p hp
          have hi2 : i < 2 := by simpa using hi
          interval_cases i
          · simp at hp
          · simp at hp
            rw [hp]
            decide)).2.2.2.1

/-- **C10.** For every well-formed object map, looking up a name that is
not a member returns NULL rather than aborting, and looking up a present
name returns the stored element. -/
theorem object_get_missing_and_present (m : CMapT) (name : Chars)
    (e : Option CElem) (hcap : 0 < m.length) (hwf : MapWF m) :
    ((∀ p ∈ m.flatten, p.1 ≠ name) → cjson_object_get m name = none) ∧
    ((name, e) ∈ m.flatten → cjson_object_get m name = e) := by
  obtain ⟨hnd, hplace⟩ := hwf
  have hh : cjson_hash name % m.length < m.length := Nat.mod_lt _ hcap
  constructor
  · intro habs
    unfold cjson_object_get
    have hfind : (m.getD (cjson_hash name % m.length) []).find?
        (fun p => p.1 = name) = none := by
      rw [List.find?_eq_none]
      intro p hp
      have hpj : p ∈ m.flatten := by
        rw [List.mem_flatten]
        refine ⟨m.getD (cjson_hash name % m.length) [], ?_, hp⟩
        rw [List.getD_eq_getElem _ _ hh]
        exact List.getElem_mem _
      simp [habs p hpj]
    rw [hfind]
  · intro hmem
    obtain ⟨b, hb, hpb⟩ := List.mem_flatten.mp hmem
    obtain ⟨j, hj, hbj⟩ := List.mem_iff_getElem.mp hb
    have hplaced : cjson_hash name % m.length = j := by
      have := hplace j hj (name, e)
        (by rw [List.getD_eq_getElem _ _ hj, hbj]; exact hpb)
      exact this
    unfold cjson_object_get
    rw [hplaced, List.getD_eq_getElem _ _ hj, hbj]
    rw [find?_of_mem_nodup b name e hpb (hnd b hb)]

/-- **C10 witness**: present and missing lookups on a concrete map. -/
theorem object_get_missing_and_present_witness :
    cjson_object_get [[], [(['a'], some (cjson_create_integer 7))]] ['b']
      = none ∧
    cjson_object_get [[], [(['a'], some (cjson_create_integer 7))]] ['a']
      = some (cjson_create_integer 7) := by
  have hwf : MapWF [[], [(['a'], some (cjson_create_integer 7))]] := by
    constructor
    · decide
    · intro i hi p hp
      have hi2 : i < 2 := by simpa using hi
      interval_cases i
      · simp at hp
      · simp at hp
        rw [hp]
        decide
  constructor
  · refine (object_get_missing_and_present _ ['b'] none
      (by decide) hwf).1 ?_
    intro p hp
    simp at hp
    rw [hp]
    decide
  · exact (object_get_missing_and_present _ ['a']
      (some (cjson_create_integer 7)) (by decide) hwf).2 (by simp)

end CJson

namespace CJson

/-! ## Object iterator -/

/-- The `cjson_object_iterator` struct.  `item` is the suffix of the current
bucket's chain beginning at the current `cjson_map_item` (`[]` is a NULL
item pointer); the `map` pointer is passed separately to the step
function. -/
structure ObjIterM where
  name : Chars
  element : Option CElem
  isEnd : Bool
  i : Nat
  item : Bucket

/-- Offset of the first nonempty bucket in a bucket-array suffix. -/
def firstNE : CMapT → Option Nat
  | [] => none
  | [] :: bs => (firstNE bs).map (· + 1)
  | (_ :: _) :: _ => some 0

/-- The bucket-scan `for` loop shared by `cjson_iterate_object` and
`cjson_iterate_next`: the first index `≥ j` whose bucket is nonempty, or
the capacity when every remaining bucket is empty. -/
def firstNEFrom (m : CMapT) (j : Nat) : Nat :=
  match firstNE (m.drop j) with
  | some k => j + k
  | none => m.length

/-- `cjson_iterate_object`: scan for the first nonempty bucket; when none
exists the iterator starts out ended (remaining fields zeroed by the
struct initializer). -/
def cjson_iterate_object (m : CMapT) : ObjIterM :=
  match m.getD (firstNEFrom m 0) [] with
  | [] => { name := [], element := none, isEnd := true,
            i := firstNEFrom m 0, item := [] }
  | (n, e) :: rest => { name := n, element := e, isEnd := false,
                        i := firstNEFrom m 0, item := (n, e) :: rest }

/-- The body of `cjson_iterate_next` between the `end` test and the final
capacity check: follow `item->next` within the chain, else scan the later
buckets. -/
def iterAdvance (m : CMapT) (it : ObjIterM) : ObjIterM :=
  match it.item with
  | [] => it
  | _ :: rest =>
    match rest with
    | (n, e) :: _ => { it with item := rest, name := n, element := e }
    | [] =>
      match m.getD (firstNEFrom m (it.i + 1)) [] with
      | (n, e) :: r =>
        { it with
          name := n, element := e, i := firstNEFrom m (it.i + 1),
          item := (n, e) :: r }
      | [] => { it with i := firstNEFrom m (it.i + 1) }

/-- The final `i == capacity` check of `cjson_iterate_next`. -/
def iterEndCheck (m : CMapT) (it : ObjIterM) : ObjIterM :=
  if it.i = m.length then { it with isEnd := true } else it

/-- `cjson_iterate_next`. -/
def cjson_iterate_next (m : CMapT) (it : ObjIterM) : ObjIterM :=
  if it.isEnd then it else iterEndCheck m (iterAdvance m it)

/-- Drive the iterator to the end, collecting the visited
`(name, element)` pairs, and return the final iterator; this is the
`while (!it.end)` traversal pattern of the header's documentation. -/
def iterRunSt (m : CMapT) : Nat → ObjIterM → (List (Chars × Option CElem) × ObjIterM)
  | 0, it => ([], it)
  | fuel + 1, it =>
    if it.isEnd then ([], it)
    else
      ((it.name, it.element) ::
          (iterRunSt m fuel (cjson_iterate_next m it)).1,
        (iterRunSt m fuel (cjson_iterate_next m it)).2)

theorem firstNE_none_flatten {bs : CMapT} (h : firstNE bs = none) :
    bs.flatten = [] := by
  induction bs with
  | nil => rfl
  | cons b bs ih =>
    match b with
    | [] =>
      simp only [firstNE, Option.map_eq_none'] at h
      simp [ih h]
    | (p :: r) => simp [firstNE] at h

theorem firstNE_some {bs : CMapT} {k : Nat} (h : firstNE bs = some k) :
    k < bs.length ∧ bs.getD k [] ≠ [] ∧
      bs.flatten = bs.getD k [] ++ (bs.drop (k + 1)).flatten := by
  induction bs generalizing k with
  | nil => simp [firstNE] at h
  | cons b bs ih =>
    match b with
    | [] =>
      simp only [firstNE, Option.map_eq_some'] at h
      obtain ⟨k', hk', rfl⟩ := h
      obtain ⟨h1, h2, h3⟩ := ih hk'
      refine ⟨by simpa using h1, by simpa using h2, ?_⟩
      simpa using h3
    | (p :: r) =>
      simp only [firstNE, Option.some_inj] at h
      subst h
      simp

end CJson

namespace CJson

theorem iterRunSt_end (m : CMapT) (f : Nat) (it : ObjIterM)
    (h : it.isEnd = true) : iterRunSt m f it = ([], it) := by
  cases f <;> simp [iterRunSt, h]

theorem iterRunSt_step (m : CMapT) (f : Nat) (it : ObjIterM)
    (h : it.isEnd = false) :
    iterRunSt m (f + 1) it
      = ((it.name, it.element) ::
          (iterRunSt m f (cjson_iterate_next m it)).1,
        (iterRunSt m f (cjson_iterate_next m it)).2) := by
  simp [iterRunSt, h]

theorem getD_drop (m : CMapT) (j k : Nat) :
    (m.drop j).getD k [] = m.getD (j + k) [] := by
  rw [List.getD_eq_getElem?_getD, List.getD_eq_getElem?_getD,
    List.getElem?_drop]

theorem iterate_next_chain (m : CMapT) (n n' : Chars)
    (e e' : Option CElem) (r' : Bucket) (i : Nat) (hi : i ≠ m.length) :
    cjson_iterate_next m ⟨n, e, false, i, (n, e) :: (n', e') :: r'⟩
      = ⟨n', e', false, i, (n', e') :: r'⟩ := by
  simp [cjson_iterate_next, iterAdvance, iterEndCheck, hi]

theorem iterate_next_newbucket (m : CMapT) (n : Chars) (e : Option CElem)
    (i : Nat) (n2 : Chars) (e2 : Option CElem) (r2 : Bucket)
    (hj : m.getD (firstNEFrom m (i + 1)) [] = (n2, e2) :: r2)
    (hjne : firstNEFrom m (i + 1) ≠ m.length) :
    cjson_iterate_next m ⟨n, e, false, i, [(n, e)]⟩
      = ⟨n2, e2, false, firstNEFrom m (i + 1), (n2, e2) :: r2⟩ := by
  have hj' : (m[firstNEFrom m (i + 1)]?).getD [] = (n2, e2) :: r2 := by
    rw [← List.getD_eq_getElem?_getD]
    exact hj
  simp [cjson_iterate_next, iterAdvance, hj', iterEndCheck, hjne]

theorem iterate_next_exhausted (m : CMapT) (n : Chars) (e : Option CElem)
    (i : Nat) (hj : firstNEFrom m (i + 1) = m.length) :
    cjson_iterate_next m ⟨n, e, false, i, [(n, e)]⟩
      = ⟨n, e, true, m.length, [(n, e)]⟩ := by
  have hget : m.getD (firstNEFrom m (i + 1)) [] = [] := by
    rw [hj]
    exact List.getD_eq_default _ _ (le_refl _)
  simp [cjson_iterate_next, iterAdvance, hget, iterEndCheck, hj]

/-- Loop invariant of the iterator traversal: from an in-progress state
positioned at entry `(n, e)` with `rest` remaining in the current chain,
the traversal yields that entry, the rest of its chain, and the contents of
all later buckets, ending with `end = true`. -/
theorem iterRun_inv (m : CMapT) :
    ∀ (fuel i : Nat) (rest : Bucket) (n : Chars) (e : Option CElem),
      i < m.length →
      rest.length + (m.drop (i + 1)).flatten.length < fuel →
      (iterRunSt m fuel ⟨n, e, false, i, (n, e) :: rest⟩).1
          = (n, e) :: (rest ++ (m.drop (i + 1)).flatten) ∧
      (iterRunSt m fuel ⟨n, e, false, i, (n, e) :: rest⟩).2.isEnd = true := by
  intro fuel
  induction fuel with
  | zero =>
    intro i rest n e _ hf
    omega
  | succ f ih =>
    intro i rest n e hi hf
    match rest with
    | (n', e') :: r' =>
      rw [iterRunSt_step m f _ rfl]
      rw [iterate_next_chain m n n' e e' r' i (by omega)]
      have hih := ih i r' n' e' hi (by simp at hf ⊢; omega)
      refine ⟨?_, hih.2⟩
      rw [hih.1]
      rfl
    | [] =>
      cases hfe : firstNE (m.drop (i + 1)) with
      | none =>
        have hfl : (m.drop (i + 1)).flatten = [] := firstNE_none_flatten hfe
        have hj : firstNEFrom m (i + 1) = m.length := by
          rw [firstNEFrom, hfe]
        rw [iterRunSt_step m f _ rfl]
        rw [iterate_next_exhausted m n e i hj]
        rw [iterRunSt_end m f _ rfl]
        constructor
        · simp [hfl]
        · rfl
      | some k =>
        obtain ⟨hk1, hk2, hk3⟩ := firstNE_some hfe
        rw [List.length_drop] at hk1
        have hjv : firstNEFrom m (i + 1) = i + 1 + k := by
          rw [firstNEFrom, hfe]
        have hgd : (m.drop (i + 1)).getD k [] = m.getD (i + 1 + k) [] :=
          getD_drop m (i + 1) k
        obtain ⟨n2, e2, r2, hb⟩ :
            ∃ n2 e2 r2, m.getD (i + 1 + k) [] = (n2, e2) :: r2 := by
          rw [← hgd]
          cases hx : (m.drop (i + 1)).getD k [] with
          | nil => exact absurd hx hk2
          | cons p r => exact ⟨p.1, p.2, r, rfl⟩
        have hflat : (m.drop (i + 1)).flatten
            = (n2, e2) :: (r2 ++ (m.drop (i + 1 + k + 1)).flatten) := by
          rw [hk3, hgd, hb]
          have hdd : (m.drop (i + 1)).drop (k + 1) = m.drop (i + 1 + k + 1) := by
            rw [List.drop_drop]
            congr 1
          rw [hdd]
          rfl
        rw [iterRunSt_step m f _ rfl]
        rw [iterate_next_newbucket m n e i n2 e2 r2 (by rw [hjv]; exact hb)
          (by omega)]
        rw [hjv]
        have hih := ih (i + 1 + k) r2 n2 e2 (by omega)
          (by
            have hlen := congrArg List.length hflat
            rw [List.length_cons, List.length_append] at hlen
            simp only [List.length_nil] at hf
            omega)
        refine ⟨?_, hih.2⟩
        rw [hih.1, hflat]
        rfl

/-- **C9.** The iterator from `cjson_iterate_object`, advanced by
`cjson_iterate_next`, visits every stored `(name, element)` entry exactly
once — all buckets, all chain positions, in bucket-then-chain order — and
then sets `end` to true; on an empty map the initial iterator already has
`end = true`. -/
theorem iterate_object_visits_all (m : CMapT) (fuel : Nat)
    (hfuel : m.flatten.length < fuel) :
    (iterRunSt m fuel (cjson_iterate_object m)).1 = m.flatten ∧
    (iterRunSt m fuel (cjson_iterate_object m)).2.isEnd = true ∧
    (m.flatten = [] → (cjson_iterate_object m).isEnd = true) := by
  cases hfe : firstNE m with
  | none =>
    have hfl : m.flatten = [] := firstNE_none_flatten hfe
    have hj : firstNEFrom m 0 = m.length := by
      rw [firstNEFrom, List.drop_zero, hfe]
    have hit : cjson_iterate_object m
        = ⟨[], none, true, m.length, []⟩ := by
      rw [cjson_iterate_object, hj,
        List.getD_eq_default _ _ (le_refl _)]
    rw [hit, iterRunSt_end m fuel _ rfl]
    exact ⟨hfl.symm, rfl, fun _ => rfl⟩
  | some k =>
    obtain ⟨hk1, hk2, hk3⟩ := firstNE_some hfe
    have hjv : firstNEFrom m 0 = k := by
      rw [firstNEFrom, List.drop_zero, hfe]
      simp
    obtain ⟨n, e, rest, hb⟩ :
        ∃ n e rest, m.getD k [] = (n, e) :: rest := by
      cases hx : m.getD k [] with
      | nil => exact absurd hx hk2
      | cons p r => exact ⟨p.1, p.2, r, rfl⟩
    have hit : cjson_iterate_object m = ⟨n, e, false, k, (n, e) :: rest⟩ := by
      rw [cjson_iterate_object, hjv, hb]
    have hflat : m.flatten = (n, e) :: (rest ++ (m.drop (k + 1)).flatten) := by
      rw [hk3, hb]
      rfl
    have hinv := iterRun_inv m fuel k rest n e hk1
      (by
        have hlen := congrArg List.length hflat
        rw [List.length_cons, List.length_append] at hlen
        omega)
    refine ⟨?_, by rw [hit]; exact hinv.2, ?_⟩
    · rw [hit, hinv.1, hflat]
    · intro hempty
      rw [hflat] at hempty
      cases hempty

/-- **C9 witness**: a concrete three-bucket map with a two-entry chain. -/
theorem iterate_object_visits_all_witness :
    (iterRunSt [[(['a'], some (cjson_create_integer 1))], [],
        [(['b'], some (cjson_create_integer 2)),
         (['c'], some (cjson_create_integer 3))]] 4
      (cjson_iterate_object
        [[(['a'], some (cjson_create_integer 1))], [],
         [(['b'], some (cjson_create_integer 2)),
          (['c'], some (cjson_create_integer 3))]])).1
      = [[(['a'], some (cjson_create_integer 1))], [],
         [(['b'], some (cjson_create_integer 2)),
          (['c'], some (cjson_create_integer 3))]].flatten :=
  (iterate_object_visits_all
    [[(['a'], some (cjson_create_integer 1))], [],
     [(['b'], some (cjson_create_integer 2)),
      (['c'], some (cjson_create_integer 3))]] 4 (by simp)).1

end CJson

namespace CJson

/-! ## Lexer

All scanning helpers work on the suffix of the input starting at the
current position and additionally report whether the scan inspected the NUL
terminator (or a position past it).  That flag — threaded through the whole
parser as `sawEnd` — is what makes trailing-byte independence expressible.
-/

/-- `str[i]` relative to a suffix, with the has-reached-the-terminator
flag. -/
def peekAt (u : Chars) (i : Nat) : Char × Bool :=
  match u.drop i with
  | [] => ('\x00', true)
  | c :: _ => (c, false)

/-- The digit-scanning loop shared by the lexer and by `strtol`/`strtod`:
digit count, accumulated decimal value, and the terminator flag (the loop
always inspects the first non-digit). -/
def digitsAcc : Chars → Int → Nat × Int × Bool
  | [], acc => (0, acc, true)
  | c :: r, acc =>
    if isDigitC c then
      ((digitsAcc r (acc * 10 + (c.toNat - 48))).1 + 1,
        (digitsAcc r (acc * 10 + (c.toNat - 48))).2.1,
        (digitsAcc r (acc * 10 + (c.toNat - 48))).2.2)
    else (0, acc, false)

/-- `strtol(input, NULL, 10)` at a position whose first byte is `-` or a
digit (the only call sites).  Clamping at `LONG_MAX` is not modelled; no
input in this development comes near it. -/
def strtolM : Chars → Int × Bool
  | [] => (0, true)
  | c :: r =>
    if c = '-' then (-(digitsAcc r 0).2.1, (digitsAcc r 0).2.2)
    else ((digitsAcc (c :: r) 0).2.1, (digitsAcc (c :: r) 0).2.2)

/-- The unsigned part of `strtod`: integer digits, then an optional `.`
followed by fraction digits.  Exponent notation is not modelled — the
grammar never produces a float token whose value the development reads from
an exponent form. -/
def strtodAbs (u : Chars) : Rat × Bool :=
  if (peekAt u (digitsAcc u 0).1).1 = '.' then
    ((digitsAcc u 0).2.1 +
        mkRat (digitsAcc (u.drop ((digitsAcc u 0).1 + 1)) 0).2.1
          (10 ^ (digitsAcc (u.drop ((digitsAcc u 0).1 + 1)) 0).1),
      (digitsAcc u 0).2.2 ||
        (digitsAcc (u.drop ((digitsAcc u 0).1 + 1)) 0).2.2)
  else ((digitsAcc u 0).2.1, (digitsAcc u 0).2.2)

/-- `strtod(input, NULL)` at a position whose first byte is `-` or a
digit. -/
def strtodM : Chars → Rat × Bool
  | [] => (0, true)
  | c :: r =>
    if c = '-' then (-(strtodAbs r).1, (strtodAbs r).2)
    else ((strtodAbs (c :: r)).1, (strtodAbs (c :: r)).2)

/-- Result of the string-token scanning loop (counts are body characters
after the opening quote). -/
inductive StrScan where
  | ok (n : Nat)
  /-- invalid escape: `goto token_error` with the partial length. -/
  | bad (n : Nat)
  /-- `\u`: `TODO()` — an `assert(0)` abort. -/
  | todo
  /-- the loop walked past the NUL terminator: an out-of-bounds read. -/
  | over

/-- The escapes the lexer's string scanner accepts. -/
def isEscC (e : Char) : Bool :=
  e = '"' || e = '\\' || e = '/' || e = 'b' || e = 'f' || e = 'n' ||
    e = 'r' || e = 't'

/-- Shift the body-position counts of a scan result (identity on the
`todo`/`over` outcomes). -/
def strScanAdd (k : Nat) : StrScan × Bool → StrScan × Bool
  | (.ok n, fl) => (.ok (n + k), fl)
  | (.bad n, fl) => (.bad (n + k), fl)
  | (.todo, fl) => (.todo, fl)
  | (.over, fl) => (.over, fl)

mutual

/-- The `while (input[token_len] != '"')` loop of the string case, on the
suffix after the opening quote. -/
def scanStr : Chars → StrScan × Bool
  | [] => (.over, true)
  | c :: r =>
    if c = '"' then (.ok 0, false)
    else if c = '\\' then scanStrEsc r
    else strScanAdd 1 (scanStr r)

/-- The `switch (input[token_len + 1])` escape dispatch (reading the
terminator there is the `default:` error path). -/
def scanStrEsc : Chars → StrScan × Bool
  | [] => (.bad 0, true)
  | e :: r2 =>
    if isEscC e then strScanAdd 2 (scanStr r2)
    else if e = 'u' then (.todo, false)
    else (.bad 0, false)

end

/-- `strncmp(input, lit, lit.length) == 0`, with the terminator flag (a
mismatch against the NUL, when the input ends inside the literal). -/
def matchLit : Chars → Chars → Bool × Bool
  | _, [] => (true, false)
  | [], _ :: _ => (false, true)
  | c :: r, l :: lr => if c = l then matchLit r lr else (false, false)

/-- The `isspace` skip loop of `cjson_parse_ws`: count of leading
whitespace and the terminator flag (the loop inspects the first
non-whitespace byte). -/
def wsSpan : Chars → Nat × Bool
  | [] => (0, true)
  | c :: r =>
    if isSpaceC c then ((wsSpan r).1 + 1, (wsSpan r).2) else (0, false)

/-- Token kinds (`CJSON_TOK_*`). -/
inductive TokType where
  | ERROR | NONE | EOF | INTEGER | FLOAT | STRING | TRUE | FALSE | NULL
  | COLON | COMMA | LBRACE | RBRACE | LBRACK | RBRACK
deriving DecidableEq, Repr

/-- Output of reading one token at a suffix: kind, consumed length, the
values written into `integer_value` / `float_value` (`none` when the C code
leaves the field untouched), and the terminator flag. -/
structure LexOut where
  type : TokType
  len : Nat
  intV : Option Int
  fltV : Option Rat
  touched : Bool
deriving Repr

/-- The sign factor the number case multiplies back in (`sign`). -/
def numSign (c : Char) : Int := if c = '-' then -1 else 1

/-- The integer-digit scan of the number case: skipped entirely after a
leading `0` (`if (input[0] != '0')`), otherwise the digit span over the
rest, with its terminator flag. -/
def numSpan (c : Char) (r : Chars) : Nat × Bool :=
  if c = '0' then (0, false) else ((digitsAcc r 0).1, (digitsAcc r 0).2.2)

/-- `token_len` after the integer-digit loop. -/
def numTokLen (c : Char) (r : Chars) : Nat := 1 + (numSpan c r).1

/-- The number case of the lexer: optional sign, digit span, `strtol`
value times the sign (re-applying a sign `strtol` already consumed), then
the look-ahead for `.` plus a digit and the one-short fractional-digit
loop `while (isdigit(input[token_len + 1]))`. -/
def lexNum (c : Char) (r : Chars) : LexOut :=
  if (peekAt (c :: r) (numTokLen c r)).1 = '.' &&
      isDigitC (peekAt (c :: r) (numTokLen c r + 1)).1 then
    ⟨.FLOAT,
      numTokLen c r + 1 +
        (digitsAcc ((c :: r).drop (numTokLen c r + 2)) 0).1,
      some (toInt32 ((strtolM (c :: r)).1 * numSign c)),
      some ((strtodM (c :: r)).1 * numSign c),
      (numSpan c r).2 || (strtolM (c :: r)).2 ||
        (peekAt (c :: r) (numTokLen c r)).2 ||
        (peekAt (c :: r) (numTokLen c r + 1)).2 ||
        (digitsAcc ((c :: r).drop (numTokLen c r + 2)) 0).2.2 ||
        (strtodM (c :: r)).2⟩
  else
    ⟨.INTEGER, numTokLen c r,
      some (toInt32 ((strtolM (c :: r)).1 * numSign c)), none,
      (numSpan c r).2 || (strtolM (c :: r)).2 ||
        (peekAt (c :: r) (numTokLen c r)).2 ||
        (decide ((peekAt (c :: r) (numTokLen c r)).1 = '.') &&
          (peekAt (c :: r) (numTokLen c r + 1)).2)⟩

/-- The `switch (input[0])` of `cjson_read_next_token`, on the suffix at
the current location.  `none` models the two non-returning outcomes: the
`TODO()` abort on `\u` and the out-of-bounds scan past an unterminated
string. -/
def lexOne : Chars → Option LexOut
  | [] => some ⟨.EOF, 0, none, none, true⟩
  | c :: r =>
    if c = '-' || isDigitC c then
      some (lexNum c r)
    else if c = 'f' then
      if (matchLit (c :: r) ['f', 'a', 'l', 's', 'e']).1 then
        some ⟨.FALSE, 5, none, none, (matchLit (c :: r) ['f', 'a', 'l', 's', 'e']).2⟩
      else some ⟨.ERROR, 0, none, none, (matchLit (c :: r) ['f', 'a', 'l', 's', 'e']).2⟩
    else if c = 'n' then
      if (matchLit (c :: r) ['n', 'u', 'l', 'l']).1 then
        some ⟨.NULL, 4, none, none, (matchLit (c :: r) ['n', 'u', 'l', 'l']).2⟩
      else some ⟨.ERROR, 0, none, none, (matchLit (c :: r) ['n', 'u', 'l', 'l']).2⟩
    else if c = 't' then
      if (matchLit (c :: r) ['t', 'r', 'u', 'e']).1 then
        some ⟨.TRUE, 4, none, none, (matchLit (c :: r) ['t', 'r', 'u', 'e']).2⟩
      else some ⟨.ERROR, 0, none, none, (matchLit (c :: r) ['t', 'r', 'u', 'e']).2⟩
    else if c = ',' then some ⟨.COMMA, 1, none, none, false⟩
    else if c = ':' then some ⟨.COLON, 1, none, none, false⟩
    else if c = '[' then some ⟨.LBRACK, 1, none, none, false⟩
    else if c = ']' then some ⟨.RBRACK, 1, none, none, false⟩
    else if c = '{' then some ⟨.LBRACE, 1, none, none, false⟩
    else if c = '}' then some ⟨.RBRACE, 1, none, none, false⟩
    else if c = '"' then
      match scanStr r with
      | (.ok n, fl) => some ⟨.STRING, n + 2, none, none, fl⟩
      | (.bad n, fl) => some ⟨.ERROR, n + 1, none, none, fl⟩
      | (.todo, _) => none
      | (.over, _) => none
    else some ⟨.ERROR, 0, none, none, false⟩


end CJson

namespace CJson

/-- The `cjson_lexer` state plus the parser's threaded `int *error` flag.
`sawEnd` records whether any scan so far inspected the NUL terminator. -/
structure PState where
  loc : Nat
  tokType : TokType
  tokStart : Nat
  tokLen : Nat
  tokInt : Int
  tokFloat : Rat
  sawEnd : Bool
  err : Bool
deriving Repr

/-- `cjson_lexer lexer = { .content = str }`: everything else
zero-initialized (`CJSON_TOK_NONE` is 0). -/
def initPState : PState := ⟨0, .NONE, 0, 0, 0, 0, false, false⟩

/-- A `cjson_token` as returned by `cjson_lexer_pop` (the `content`
pointer is the start offset into the input). -/
structure TokC where
  type : TokType
  start : Nat
  len : Nat
  intV : Int
  fltV : Rat

/-- The token currently materialized in the lexer. -/
def PState.curTok (st : PState) : TokC :=
  ⟨st.tokType, st.tokStart, st.tokLen, st.tokInt, st.tokFloat⟩

/-- `cjson_read_next_token`: lex one token at the cursor, store it in the
lexer, advance the cursor by its length.  Fields the C code does not write
keep their previous values. -/
def cjson_read_next_token (s : Chars) (st : PState) : Option PState :=
  match lexOne (s.drop st.loc) with
  | none => none
  | some o =>
    some { st with
      tokType := o.type
      tokStart := st.loc
      tokLen := o.len
      tokInt := o.intV.getD st.tokInt
      tokFloat := o.fltV.getD st.tokFloat
      loc := st.loc + o.len
      sawEnd := st.sawEnd || o.touched }

/-- `cjson_lexer_peek`: materialize the token if none is buffered. -/
def cjson_lexer_peek (s : Chars) (st : PState) : Option PState :=
  if st.tokType = .NONE then cjson_read_next_token s st else some st

/-- `cjson_lexer_pop`: peek, hand out the token, clear only its type. -/
def cjson_lexer_pop (s : Chars) (st : PState) : Option (TokC × PState) :=
  match cjson_lexer_peek s st with
  | none => none
  | some st1 => some (st1.curTok, { st1 with tokType := .NONE })

/-- `cjson_parse_ws`: skip whitespace at the cursor (bypassing the token
buffer, as the C code reads `content[location]` directly). -/
def cjson_parse_ws (s : Chars) (st : PState) : PState :=
  { st with
    loc := st.loc + (wsSpan (s.drop st.loc)).1
    sawEnd := st.sawEnd || (wsSpan (s.drop st.loc)).2 }

/-- The unescaping loop of `cjson_extract_string` over the body of a string
token.  Outer `none` is the `TODO()` abort on `\u`; inner `none` is the
NULL return on an unrecognized escape (note: the C function, unlike the
lexer, has no case for `\r`).  A lone trailing backslash makes the C loop
read the closing quote that always follows the body in a lexed string
token, hence the `['"']` result for that (lexer-unreachable) shape. -/
def unescape : Chars → Option (Option Chars)
  | [] => some (some [])
  | c :: r =>
    if c = '\\' then
      match r with
      | [] => some (some ['"'])
      | e :: r2 =>
        if e = '"' then (unescape r2).map (Option.map ('"' :: ·))
        else if e = '\\' then (unescape r2).map (Option.map ('\\' :: ·))
        else if e = '/' then (unescape r2).map (Option.map ('/' :: ·))
        else if e = 'b' then (unescape r2).map (Option.map ('\x08' :: ·))
        else if e = 'f' then (unescape r2).map (Option.map ('\x0c' :: ·))
        else if e = 'n' then (unescape r2).map (Option.map ('\n' :: ·))
        else if e = 't' then (unescape r2).map (Option.map ('\t' :: ·))
        else if e = 'u' then none
        else some none
    else (unescape r).map (Option.map (c :: ·))

/-- `cjson_extract_string` on a token at `[start, start+len)`: strip the
quotes and resolve escapes. -/
def cjson_extract_string (s : Chars) (start len : Nat) :
    Option (Option Chars) :=
  unescape ((s.drop (start + 1)).take (len - 2))

end CJson

namespace CJson

/-! ## Parser

The recursive-descent functions, mutually recursive on an explicit fuel
(every C call site strictly consumes input, so any fuel larger than the
input length behaves identically; the theorems state their fuel bounds
explicitly).  The outer `Option` is `none` only for the non-returning
outcomes (asserts/out-of-bounds in the lexer) and for fuel exhaustion; the
`Option CElem` inside is the possibly-NULL element pointer the C functions
return. -/

mutual

/-- `cjson_parse_value`. -/
def cjson_parse_value (s : Chars) : Nat → PState → Option (Option CElem × PState)
  | 0, _ => none
  | fuel + 1, st =>
    match cjson_lexer_peek s st with
    | none => none
    | some stP =>
      match stP.tokType with
      | .LBRACE => cjson_parse_object s fuel stP
      | .LBRACK => cjson_parse_array s fuel stP
      | .STRING =>
        match cjson_extract_string s stP.tokStart stP.tokLen with
        | none => none
        | some strv =>
          match cjson_lexer_pop s stP with
          | none => none
          | some (_, st2) =>
            some (some (.mk .tSTRING (.vString strv)), st2)
      | .INTEGER =>
        match cjson_lexer_pop s stP with
        | none => none
        | some (_, st2) =>
          some (some (.mk .tINTEGER (.vInt stP.tokInt)), st2)
      | .FLOAT =>
        match cjson_lexer_pop s stP with
        | none => none
        | some (_, st2) =>
          some (some (.mk .tINTEGER (.vFloat stP.tokFloat)), st2)
      | .TRUE =>
        match cjson_lexer_pop s stP with
        | none => none
        | some (_, st2) => some (some (.mk .tBOOL (.vBool true)), st2)
      | .FALSE =>
        match cjson_lexer_pop s stP with
        | none => none
        | some (_, st2) => some (some (.mk .tBOOL (.vBool false)), st2)
      | .NULL =>
        match cjson_lexer_pop s stP with
        | none => none
        | some (_, st2) => some (some (.mk .tNULL .vNone), st2)
      | _ => some (none, stP)

/-- `cjson_parse_object` (the fresh map has the parser's fixed capacity of
64 buckets). -/
def cjson_parse_object (s : Chars) : Nat → PState → Option (Option CElem × PState)
  | 0, _ => none
  | fuel + 1, st =>
    match cjson_lexer_pop s st with
    | none => none
    | some (_, st1) =>
      match cjson_lexer_peek s (cjson_parse_ws s st1) with
      | none => none
      | some stP =>
        match
          (if ¬stP.err ∧ stP.tokType ≠ .RBRACE then
            cjson_parse_members s fuel (List.replicate 64 []) stP
          else some (List.replicate 64 [], stP)) with
        | none => none
        | some (map1, st3) =>
          match cjson_lexer_pop s st3 with
          | none => none
          | some (tok, st4) =>
            if tok.type ≠ .RBRACE then some (none, st4)
            else some (some (.mk .tOBJECT (.vObject map1)), st4)

/-- `cjson_parse_members`: first member, then the comma loop. -/
def cjson_parse_members (s : Chars) :
    Nat → CMapT → PState → Option (CMapT × PState)
  | 0, _, _ => none
  | fuel + 1, map, st =>
    match cjson_parse_member s fuel map st with
    | none => none
    | some (map1, st1) => cjson_parse_members_loop s fuel map1 st1

/-- The `while (!*error && peek == ',')` loop of `cjson_parse_members`. -/
def cjson_parse_members_loop (s : Chars) :
    Nat → CMapT → PState → Option (CMapT × PState)
  | 0, _, _ => none
  | fuel + 1, map, st =>
    if st.err then some (map, st)
    else
      match cjson_lexer_peek s st with
      | none => none
      | some stP =>
        if stP.tokType = .COMMA then
          match cjson_lexer_pop s stP with
          | none => none
          | some (_, st1) =>
            match cjson_parse_member s fuel map st1 with
            | none => none
            | some (map2, st2) => cjson_parse_members_loop s fuel map2 st2
        else some (map, stP)

/-- `cjson_parse_member`: name string, `:`, element, then insert (the
member name is the raw token body, escapes unresolved, as `strndup`
copies it). -/
def cjson_parse_member (s : Chars) :
    Nat → CMapT → PState → Option (CMapT × PState)
  | 0, _, _ => none
  | fuel + 1, map, st =>
    match cjson_lexer_pop s (cjson_parse_ws s st) with
    | none => none
    | some (strTok, st2) =>
      if strTok.type ≠ .STRING then some (map, { st2 with err := true })
      else
        match cjson_lexer_peek s (cjson_parse_ws s st2) with
        | none => none
        | some stP =>
          if stP.tokType ≠ .COLON then some (map, { stP with err := true })
          else
            match cjson_lexer_pop s stP with
            | none => none
            | some (_, st4) =>
              match cjson_parse_element s fuel st4 with
              | none => none
              | some (elem, st5) =>
                some (cjson_map_insert map
                  ((s.drop (strTok.start + 1)).take (strTok.len - 2))
                  elem, st5)

/-- `cjson_parse_array`. -/
def cjson_parse_array (s : Chars) : Nat → PState → Option (Option CElem × PState)
  | 0, _ => none
  | fuel + 1, st =>
    match cjson_lexer_pop s st with
    | none => none
    | some (_, st1) =>
      match cjson_lexer_peek s (cjson_parse_ws s st1) with
      | none => none
      | some stP =>
        if ¬stP.err ∧ stP.tokType ≠ .RBRACK then
          match cjson_parse_element s fuel stP with
          | none => none
          | some (e1, st3) =>
            match cjson_parse_array_loop s fuel (cjson_array_append [] e1) st3 with
            | none => none
            | some (elems, st4) =>
              match cjson_lexer_peek s st4 with
              | none => none
              | some stP2 =>
                if stP2.tokType ≠ .RBRACK then some (none, stP2)
                else
                  match cjson_lexer_pop s stP2 with
                  | none => none
                  | some (_, st5) =>
                    some (some (.mk .tARRAY (.vArray elems)), st5)
        else
          match cjson_lexer_pop s stP with
          | none => none
          | some (_, st3) => some (some (.mk .tARRAY (.vArray [])), st3)

/-- The `while (!*error && peek == ',')` loop of `cjson_parse_array`. -/
def cjson_parse_array_loop (s : Chars) :
    Nat → List (Option CElem) → PState → Option (List (Option CElem) × PState)
  | 0, _, _ => none
  | fuel + 1, elems, st =>
    if st.err then some (elems, st)
    else
      match cjson_lexer_peek s st with
      | none => none
      | some stP =>
        if stP.tokType = .COMMA then
          match cjson_lexer_pop s stP with
          | none => none
          | some (_, st1) =>
            match cjson_parse_element s fuel st1 with
            | none => none
            | some (e, st2) =>
              cjson_parse_array_loop s fuel (cjson_array_append elems e) st2
        else some (elems, stP)

/-- `cjson_parse_element`: `ws value ws`. -/
def cjson_parse_element (s : Chars) : Nat → PState → Option (Option CElem × PState)
  | 0, _ => none
  | fuel + 1, st =>
    match cjson_parse_value s fuel (cjson_parse_ws s st) with
    | none => none
    | some (v, st1) => some (v, cjson_parse_ws s st1)

end

/-- `cjson_parse_str`: parse one element from a fresh lexer; a raised error
flag becomes a NULL result. -/
def cjson_parse_str (s : Chars) (fuel : Nat) : Option (Option CElem) :=
  match cjson_parse_element s fuel initPState with
  | none => none
  | some (v, st) => some (if st.err then none else v)

end CJson

namespace CJson

/-- **C1** (code bug).  Parsing the float literal `1.5` succeeds, stores
the 64-bit value in the float payload, but tags the element
`CJSON_INTEGER` (`cjson_parse_value`'s `CJSON_TOK_FLOAT` case writes
`element_type = CJSON_INTEGER`), so `cjson_is_float` is false and
`cjson_is_integer` is true on the result — the opposite of the claim. -/
theorem parse_float_mistagged_as_integer :
    cjson_parse_str ['1', '.', '5'] 20
      = some (some (CElem.mk .tINTEGER (.vFloat (mkRat 3 2)))) ∧
    cjson_is_float (CElem.mk .tINTEGER (.vFloat (mkRat 3 2))) = false ∧
    cjson_is_integer (CElem.mk .tINTEGER (.vFloat (mkRat 3 2))) = true :=
  ⟨by with_unfolding_all rfl, rfl, rfl⟩

/-- **C2** (code bug).  On the trailing-comma input `[1,]`,
`cjson_parse_value` meets `]` after the comma, returns NULL *without
setting the error flag*, and `cjson_parse_array` appends that NULL; the
parse "succeeds", returning a two-slot array whose second element pointer
is NULL — a partial tree, not the null/failure result the claim
requires. -/
theorem parse_trailing_comma_array_partial_tree :
    cjson_parse_str ['[', '1', ',', ']'] 20
      = some (some (CElem.mk .tARRAY
          (.vArray [some (CElem.mk .tINTEGER (.vInt 1)), none]))) :=
  rfl

/-- **C7** (code bug).  `cjson_read_next_token` computes
`strtol(input, NULL, 10) * sign` where `strtol` has already consumed the
`-`, so the sign is applied twice: parsing `-5` yields the integer `+5`,
not `-5`. -/
theorem parse_negative_integer_double_negation :
    cjson_parse_str ['-', '5'] 20
      = some (some (CElem.mk .tINTEGER (.vInt 5))) ∧
    cjson_parse_str ['-', '5'] 20
      ≠ some (some (cjson_create_integer (-5))) := by
  have h5 : cjson_parse_str ['-', '5'] 20
      = some (some (CElem.mk .tINTEGER (.vInt 5))) := by rfl
  refine ⟨h5, ?_⟩
  intro h
  rw [h5, cjson_create_integer] at h
  simp at h

end CJson

namespace CJson

/-! ## Serializer (`cjson_to_str`) -/

/-- `sprintf("%d", n)`. -/
def intToChars (n : Int) : Chars :=
  if n < 0 then '-' :: Nat.toDigits 10 (-n).toNat
  else Nat.toDigits 10 n.toNat

/-- The unsigned part of `sprintf("%lf", q)` for `q ≥ 0`: six fractional
digits, computed as `round(q · 10⁶)` over the reduced numerator and
denominator.  Rounding of a value halfway between two representables uses
half-up here; the development only relies on values (such as `1.5`) that
are exact in both binary and decimal, where no rounding occurs. -/
def formatLfAbs (q : Rat) : Chars :=
  Nat.toDigits 10
      ((q.num.toNat * 1000000 + q.den / 2) / q.den / 1000000) ++
    '.' :: (List.replicate
        (6 - (Nat.toDigits 10
          ((q.num.toNat * 1000000 + q.den / 2) / q.den % 1000000)).length) '0'
      ++ Nat.toDigits 10
        ((q.num.toNat * 1000000 + q.den / 2) / q.den % 1000000))

/-- `sprintf("%lf", q)` (`q < 0` is tested on the numerator, which is
equivalent and computable). -/
def formatLf (q : Rat) : Chars :=
  if q.num < 0 then '-' :: formatLfAbs (-q) else formatLfAbs q

/-- The pretty-mode separator: newline plus `indent` spaces (nothing in
compact mode). -/
def nlIndent (pretty : Bool) (indent : Nat) : Chars :=
  if pretty then '\n' :: List.replicate indent ' ' else []

mutual

/-- `cjson_to_str_rec`.  The C `static size_t indent` always returns to
its entry value on exit, so threading it as a parameter (starting at 0 per
top-level call) is behaviorally identical.  `none` models the NULL
dereference on a NULL element pointer, a union member read that does not
match the tag, printing a NULL string payload, and fuel exhaustion — none
of which return normally in C. -/
def cjson_to_str_rec : Nat → Option CElem → Bool → Nat → Option Chars
  | 0, _, _, _ => none
  | _ + 1, none, _, _ => none
  | fuel + 1, some (.mk t v), pretty, indent =>
    match t with
    | .tNULL => some ['n', 'u', 'l', 'l']
    | .tBOOL =>
      match v with
      | .vBool true => some ['t', 'r', 'u', 'e']
      | .vBool false => some ['f', 'a', 'l', 's', 'e']
      | _ => none
    | .tINTEGER =>
      match v with
      | .vInt n => some (intToChars n)
      | _ => none
    | .tFLOAT =>
      match v with
      | .vFloat q => some (formatLf q)
      | _ => none
    | .tSTRING =>
      match v with
      | .vString (some str) => some ('"' :: str ++ ['"'])
      | _ => none
    | .tARRAY =>
      match v with
      | .vArray [] =>
        some ('[' :: nlIndent pretty (indent + 2) ++
          nlIndent pretty indent ++ [']'])
      | .vArray (e0 :: restl) =>
        match cjson_to_str_rec fuel e0 pretty (indent + 2) with
        | none => none
        | some s0 =>
          match cjson_to_str_list fuel restl pretty (indent + 2) with
          | none => none
          | some sr =>
            some ('[' :: nlIndent pretty (indent + 2) ++ s0 ++ sr ++
              nlIndent pretty indent ++ [']'])
      | _ => none
    | .tOBJECT =>
      match v with
      | .vObject buckets =>
        if (cjson_iterate_object buckets).isEnd then
          some ('{' :: nlIndent pretty (indent + 2) ++
            nlIndent pretty indent ++ ['}'])
        else
          match cjson_to_str_rec fuel (cjson_iterate_object buckets).element
              pretty (indent + 2) with
          | none => none
          | some s0 =>
            match cjson_to_str_obj_loop fuel buckets
                (cjson_iterate_next buckets (cjson_iterate_object buckets))
                pretty (indent + 2) with
            | none => none
            | some sr =>
              some ('{' :: nlIndent pretty (indent + 2) ++
                ('"' :: (cjson_iterate_object buckets).name ++
                  '"' :: ':' :: s0) ++ sr ++
                nlIndent pretty indent ++ ['}'])
      | _ => none

/-- The `for (i = 1; i < size; i++)` tail of the array case. -/
def cjson_to_str_list : Nat → List (Option CElem) → Bool → Nat → Option Chars
  | 0, _, _, _ => none
  | _ + 1, [], _, _ => some []
  | fuel + 1, e :: rest, pretty, indent =>
    match cjson_to_str_rec fuel e pretty indent with
    | none => none
    | some se =>
      match cjson_to_str_list fuel rest pretty indent with
      | none => none
      | some sr => some (',' :: nlIndent pretty indent ++ se ++ sr)

/-- The `for (cjson_iterate_next(&it); !it.end; ...)` tail of the object
case. -/
def cjson_to_str_obj_loop :
    Nat → CMapT → ObjIterM → Bool → Nat → Option Chars
  | 0, _, _, _, _ => none
  | fuel + 1, m, it, pretty, indent =>
    if it.isEnd then some []
    else
      match cjson_to_str_rec fuel it.element pretty indent with
      | none => none
      | some se =>
        match cjson_to_str_obj_loop fuel m (cjson_iterate_next m it)
            pretty indent with
        | none => none
        | some sr =>
          some (',' :: nlIndent pretty indent ++
            ('"' :: it.name ++ '"' :: ':' :: se) ++ sr)

end

/-- `cjson_to_str`: serialize from indentation 0 (the terminating NUL of
the C string builder is immaterial to the character content). -/
def cjson_to_str (e : Option CElem) (pretty : Bool) (fuel : Nat) :
    Option Chars :=
  cjson_to_str_rec fuel e pretty 0

end CJson

namespace CJson

mutual

/-- Structural equality in the sense of the specification's round-trip
property (the source defines no equality function, so this follows the
spec's words): same variant, exact equality for scalars and strings,
position-wise equality for arrays, and member-set equality ignoring order
for objects. -/
def structuralEq : Nat → CElem → CElem → Bool
  | 0, _, _ => false
  | fuel + 1, .mk t1 v1, .mk t2 v2 =>
    t1 = t2 &&
    match v1, v2 with
    | .vNone, .vNone => true
    | .vBool a, .vBool b => a = b
    | .vInt a, .vInt b => a = b
    | .vFloat a, .vFloat b => a = b
    | .vString a, .vString b => a = b
    | .vArray l1, .vArray l2 =>
      l1.length = l2.length &&
        (List.zip l1 l2).all (fun pq => structuralEqOpt fuel pq.1 pq.2)
    | .vObject b1, .vObject b2 =>
      b1.flatten.length = b2.flatten.length &&
        b1.flatten.all (fun p => b2.flatten.any
          (fun q => p.1 = q.1 && structuralEqOpt fuel p.2 q.2)) &&
        b2.flatten.all (fun q => b1.flatten.any
          (fun p => q.1 = p.1 && structuralEqOpt fuel q.2 p.2))
    | _, _ => false

/-- Structural equality on possibly-NULL element pointers. -/
def structuralEqOpt : Nat → Option CElem → Option CElem → Bool
  | _, none, none => true
  | fuel, some a, some b => structuralEq fuel a b
  | _, _, _ => false

end

/-- **C3** (code bug).  The round trip fails already on the scalar tree
`T = Float 1.5`: `to_text(T, compact)` is `"1.500000"`, and parsing that
text yields an element tagged `CJSON_INTEGER` (with the value in the float
payload) because of the mistagging bug in `cjson_parse_value`, so
`parse(to_text(T, compact))` is not structurally equal to `T`. -/
theorem roundtrip_fails_on_float :
    cjson_to_str (some (cjson_create_float (mkRat 3 2))) false 10
      = some ['1', '.', '5', '0', '0', '0', '0', '0'] ∧
    cjson_parse_str ['1', '.', '5', '0', '0', '0', '0', '0'] 20
      = some (some (CElem.mk .tINTEGER (.vFloat (mkRat 3 2)))) ∧
    structuralEq 10 (CElem.mk .tINTEGER (.vFloat (mkRat 3 2)))
      (cjson_create_float (mkRat 3 2)) = false :=
  ⟨by decide, by with_unfolding_all rfl, by with_unfolding_all rfl⟩

end CJson

namespace CJson

/-! ## Path accessor (`cjson_get_element_from`) -/

/-- Outcome of a path query.  `assertFail` is a fatal `assert` (the
fail-fast contract); `ub` is an *unchecked* out-of-bounds or NULL read —
behavior the C code does not detect; `fuelOut` is the model's fuel
exhaustion (unreachable with fuel above the path length). -/
inductive PathRes where
  | ok (e : Option CElem)
  | assertFail
  | ub
  | fuelOut

/-- `strspn(from + 1, "a..zA..Z_0..9")`: length of the identifier after
the dot. -/
def identSpan : Chars → Nat
  | [] => 0
  | c :: r => if isIdentC c then identSpan r + 1 else 0

mutual

/-- `cjson_get_element_from`: dispatch on the first path byte, aborting on
anything but `[` or `.` (an empty path reads the NUL and also aborts). -/
def cjson_get_element_from : Nat → CElem → Chars → PathRes
  | 0, _, _ => .fuelOut
  | fuel + 1, e, path =>
    match path with
    | '[' :: _ => cjson_get_element_from_array fuel e path
    | '.' :: _ => cjson_get_element_from_object fuel e path
    | _ => .assertFail

/-- `cjson_get_element_from_array`: `assert(cjson_is_array(element))`;
`strtoul` the index (leading whitespace/sign acceptance of `strtoul` is
not modelled — no path here contains them); `assert(*endptr == ']')`; then
an **unchecked** `array->elements[i]` read — out of range this is an
out-of-bounds read (`ub`), not a failure. -/
def cjson_get_element_from_array : Nat → CElem → Chars → PathRes
  | 0, _, _ => .fuelOut
  | fuel + 1, .mk t v, path =>
    if t ≠ .tARRAY then .assertFail
    else
      match v with
      | .vArray elems =>
        if (peekAt path (1 + (digitsAcc (path.drop 1) 0).1)).1 ≠ ']' then
          .assertFail
        else
          if h : (digitsAcc (path.drop 1) 0).2.1.toNat < elems.length then
            match path.drop (1 + (digitsAcc (path.drop 1) 0).1 + 1) with
            | [] => .ok (elems.get ⟨_, h⟩)
            | rest =>
              match elems.get ⟨_, h⟩ with
              | none => .ub
              | some e' => cjson_get_element_from fuel e' rest
          else .ub
      | _ => .ub

/-- `cjson_get_element_from_object`: `assert(cjson_is_object(element))`;
`assert(isalpha(from[1]) || from[1] == '_')`; `strspn` the member name;
`assert(elt_at_name)` — a missing member (or a stored NULL element)
aborts. -/
def cjson_get_element_from_object : Nat → CElem → Chars → PathRes
  | 0, _, _ => .fuelOut
  | fuel + 1, .mk t v, path =>
    if t ≠ .tOBJECT then .assertFail
    else
      if ¬(isAlphaC (peekAt path 1).1 || (peekAt path 1).1 = '_') then
        .assertFail
      else
        match v with
        | .vObject buckets =>
          match cjson_object_get buckets
              ((path.drop 1).take (identSpan (path.drop 1))) with
          | none => .assertFail
          | some e' =>
            match path.drop (identSpan (path.drop 1) + 1) with
            | [] => .ok (some e')
            | rest => cjson_get_element_from fuel e' rest
        | _ => .ub

end

/-- **C4** (code bug).  The path accessor is fail-fast for a kind
mismatch, a missing member, a path-syntax error, and a bad first byte (all
fatal asserts) — but an array index at or beyond the length is **not**
detected: `cjson_get_element_from_array` reads `array->elements[i]`
without any bounds check, an out-of-bounds access (`ub`), where the claim
requires the operation to fail. -/
theorem get_path_unchecked_index :
    cjson_get_element_from 10
      (CElem.mk .tARRAY (.vArray [some (cjson_create_integer 1)]))
      ['[', '5', ']'] = .ub ∧
    cjson_get_element_from 10
      (CElem.mk .tARRAY (.vArray [some (cjson_create_integer 1)]))
      ['[', '0', ']'] = .ok (some (cjson_create_integer 1)) ∧
    cjson_get_element_from 10 (cjson_create_integer 1) ['[', '0', ']']
      = .assertFail ∧
    cjson_get_element_from 10
      (CElem.mk .tARRAY (.vArray [some (cjson_create_integer 1)]))
      ['x'] = .assertFail ∧
    cjson_get_element_from 10 (cjson_create_object 2) ['.', 'a']
      = .assertFail :=
  ⟨rfl, rfl, rfl, rfl, rfl⟩

end CJson

namespace CJson

/-! ## Trailing-byte independence of the lexer

Every scanning helper that returns a false terminator flag inspected only
bytes inside its suffix, so appending further text cannot change its
result.  These lemmas make that precise, together with the length bounds
needed to keep the cursor inside the original input. -/

theorem digitsAcc_append (v : Chars) :
    ∀ (u : Chars) (acc : Int) (n : Nat) (val : Int),
      digitsAcc u acc = (n, val, false) →
      digitsAcc (u ++ v) acc = (n, val, false) := by
  intro u
  induction u with
  | nil =>
    intro acc n val h
    simp [digitsAcc] at h
  | cons c r ih =>
    intro acc n val h
    rw [digitsAcc] at h
    rw [List.cons_append, digitsAcc]
    by_cases hc : isDigitC c = true
    · rw [if_pos hc] at h ⊢
      rcases ht : digitsAcc r (acc * 10 + (↑c.toNat - 48)) with ⟨n1, val1, fl1⟩
      rw [ht] at h
      simp only [Prod.mk.injEq] at h
      obtain ⟨hn, hv, hf⟩ := h
      rw [ih (acc * 10 + (↑c.toNat - 48)) n1 val1 (by rw [ht, hf])]
      simp [hn, hv]
    · rw [if_neg hc] at h ⊢
      exact h

theorem digitsAcc_flag_false_lt :
    ∀ (u : Chars) (acc : Int) (n : Nat) (val : Int),
      digitsAcc u acc = (n, val, false) → n < u.length := by
  intro u
  induction u with
  | nil => intro acc n val h; simp [digitsAcc] at h
  | cons c r ih =>
    intro acc n val h
    rw [digitsAcc] at h
    by_cases hc : isDigitC c = true
    · rw [if_pos hc] at h
      rcases ht : digitsAcc r (acc * 10 + (↑c.toNat - 48)) with ⟨n1, val1, fl1⟩
      rw [ht] at h
      simp only [Prod.mk.injEq] at h
      obtain ⟨hn, hv, hf⟩ := h
      have := ih (acc * 10 + (↑c.toNat - 48)) n1 val1 (by rw [ht, hf])
      simp only [List.length_cons]
      omega
    · rw [if_neg hc] at h
      simp only [Prod.mk.injEq] at h
      simp [← h.1]

end CJson

namespace CJson

theorem drop_eq_nil_len {u : Chars} {i : Nat} (h : u.drop i = []) :
    u.length ≤ i := by
  have := List.drop_eq_nil_iff_le.mp h
  omega

theorem peekAt_append (v u : Chars) (i : Nat) (hi : i < u.length) :
    peekAt (u ++ v) i = peekAt u i := by
  rw [peekAt, peekAt, List.drop_append_of_le_length (by omega)]
  cases hd : u.drop i with
  | nil => exact absurd (drop_eq_nil_len hd) (by omega)
  | cons d rest => simp

theorem peekAt_flag_false_lt {u : Chars} {i : Nat} {c : Char}
    (h : peekAt u i = (c, false)) : i < u.length := by
  rw [peekAt] at h
  cases hd : u.drop i with
  | nil => rw [hd] at h; simp at h
  | cons d rest =>
    by_contra hc
    have : u.drop i = [] := List.drop_eq_nil_iff_le.mpr (by omega)
    rw [this] at hd
    cases hd

theorem strtolM_append (v u : Chars) (val : Int)
    (h : strtolM u = (val, false)) : strtolM (u ++ v) = (val, false) := by
  cases u with
  | nil => simp [strtolM] at h
  | cons c r =>
    rw [strtolM] at h
    rw [List.cons_append, strtolM]
    by_cases hc : c = '-'
    · rw [if_pos hc] at h ⊢
      rcases ht : digitsAcc r 0 with ⟨n1, v1, f1⟩
      rw [ht] at h
      simp only [Prod.mk.injEq] at h
      rw [digitsAcc_append v r 0 n1 v1 (by rw [ht, h.2])]
      simp [h.1]
    · rw [if_neg hc] at h ⊢
      rcases ht : digitsAcc (c :: r) 0 with ⟨n1, v1, f1⟩
      rw [ht] at h
      simp only [Prod.mk.injEq] at h
      have hap := digitsAcc_append v (c :: r) 0 n1 v1 (by rw [ht, h.2])
      rw [List.cons_append] at hap
      rw [hap]
      simp [h.1]

theorem strtodAbs_append (v u : Chars) (q : Rat)
    (h : strtodAbs u = (q, false)) : strtodAbs (u ++ v) = (q, false) := by
  rw [strtodAbs] at h
  rcases hip : digitsAcc u 0 with ⟨n1, v1, f1⟩
  rw [hip] at h
  have hf1 : f1 = false := by
    by_cases hdot : (peekAt u n1).1 = '.'
    · rw [if_pos hdot] at h
      simp only [Prod.mk.injEq, Bool.or_eq_false_iff] at h
      exact h.2.1
    · rw [if_neg hdot] at h
      simp only [Prod.mk.injEq] at h
      exact h.2
  subst hf1
  have hlt : n1 < u.length := digitsAcc_flag_false_lt u 0 n1 v1 hip
  have hda := digitsAcc_append v u 0 n1 v1 hip
  rw [strtodAbs, hda]
  simp only
  rw [peekAt_append v u n1 hlt]
  by_cases hdot : (peekAt u n1).1 = '.'
  · rw [if_pos hdot] at h ⊢
    rw [List.drop_append_of_le_length (by omega)]
    rcases hfr : digitsAcc (u.drop (n1 + 1)) 0 with ⟨n2, v2, f2⟩
    rw [hfr] at h
    simp only [Prod.mk.injEq, Bool.or_eq_false_iff] at h
    rw [digitsAcc_append v (u.drop (n1 + 1)) 0 n2 v2 (by rw [hfr, h.2.2])]
    simp [h.1]
  · rw [if_neg hdot] at h ⊢
    simp only [Prod.mk.injEq] at h
    simp [h.1]

theorem strtodM_append (v u : Chars) (q : Rat)
    (h : strtodM u = (q, false)) : strtodM (u ++ v) = (q, false) := by
  cases u with
  | nil => simp [strtodM] at h
  | cons c r =>
    rw [strtodM] at h
    rw [List.cons_append, strtodM]
    by_cases hc : c = '-'
    · rw [if_pos hc] at h ⊢
      rcases ht : strtodAbs r with ⟨q1, f1⟩
      rw [ht] at h
      simp only [Prod.mk.injEq] at h
      rw [strtodAbs_append v r q1 (by rw [ht, h.2])]
      simp [h.1]
    · rw [if_neg hc] at h ⊢
      rcases ht : strtodAbs (c :: r) with ⟨q1, f1⟩
      rw [ht] at h
      simp only [Prod.mk.injEq] at h
      have hap := strtodAbs_append v (c :: r) q1 (by rw [ht, h.2])
      rw [List.cons_append] at hap
      rw [hap]
      simp [h.1]

theorem matchLit_append (v : Chars) :
    ∀ (lit u : Chars) (b : Bool), matchLit u lit = (b, false) →
      matchLit (u ++ v) lit = (b, false) := by
  intro lit
  induction lit with
  | nil =>
    intro u b h
    rw [matchLit] at h ⊢
    exact h
  | cons l lr ih =>
    intro u b h
    cases u with
    | nil => simp [matchLit] at h
    | cons c r =>
      rw [matchLit] at h
      rw [List.cons_append, matchLit]
      by_cases hc : c = l
      · rw [if_pos hc] at h ⊢
        exact ih r b h
      · rw [if_neg hc] at h ⊢
        exact h

theorem matchLit_true_le :
    ∀ (lit u : Chars) (fl : Bool), matchLit u lit = (true, fl) →
      lit.length ≤ u.length := by
  intro lit
  induction lit with
  | nil => intro u fl _; simp
  | cons l lr ih =>
    intro u fl h
    cases u with
    | nil => simp [matchLit] at h
    | cons c r =>
      rw [matchLit] at h
      by_cases hc : c = l
      · rw [if_pos hc] at h
        have := ih r fl h
        simp only [List.length_cons]
        omega
      · rw [if_neg hc] at h
        simp at h

theorem wsSpan_append (v : Chars) :
    ∀ (u : Chars) (n : Nat), wsSpan u = (n, false) →
      wsSpan (u ++ v) = (n, false) := by
  intro u
  induction u with
  | nil => intro n h; simp [wsSpan] at h
  | cons c r ih =>
    intro n h
    rw [wsSpan] at h
    rw [List.cons_append, wsSpan]
    by_cases hc : isSpaceC c = true
    · rw [if_pos hc] at h ⊢
      rcases ht : wsSpan r with ⟨n1, f1⟩
      rw [ht] at h
      simp only [Prod.mk.injEq] at h
      rw [ih n1 (by rw [ht, h.2])]
      simp [h.1]
    · rw [if_neg hc] at h ⊢
      exact h

theorem wsSpan_flag_false_lt :
    ∀ (u : Chars) (n : Nat), wsSpan u = (n, false) → n < u.length := by
  intro u
  induction u with
  | nil => intro n h; simp [wsSpan] at h
  | cons c r ih =>
    intro n h
    rw [wsSpan] at h
    by_cases hc : isSpaceC c = true
    · rw [if_pos hc] at h
      rcases ht : wsSpan r with ⟨n1, f1⟩
      rw [ht] at h
      simp only [Prod.mk.injEq] at h
      have := ih n1 (by rw [ht, h.2])
      simp only [List.length_cons]
      omega
    · rw [if_neg hc] at h
      simp only [Prod.mk.injEq] at h
      simp [← h.1]

end CJson


namespace CJson

theorem strScanAdd_snd (k : Nat) (p : StrScan × Bool) :
    (strScanAdd k p).2 = p.2 := by
  rcases p with ⟨res, fl⟩
  cases res <;> rfl

theorem scanStr_append (v : Chars) :
    ∀ (N : Nat) (u : Chars), u.length ≤ N → ∀ res, scanStr u = (res, false) →
      scanStr (u ++ v) = (res, false) := by
  intro N
  induction N with
  | zero =>
    intro u hlen res h
    have hu : u = [] := List.length_eq_zero.mp (by omega)
    subst hu
    simp [scanStr] at h
  | succ N ih =>
    intro u hlen res h
    cases u with
    | nil => simp [scanStr] at h
    | cons c r =>
      rw [scanStr] at h
      rw [List.cons_append, scanStr]
      by_cases hq : c = '"'
      · rw [if_pos hq] at h ⊢
        exact h
      · rw [if_neg hq] at h ⊢
        by_cases hb : c = '\\'
        · rw [if_pos hb] at h ⊢
          cases r with
          | nil => simp [scanStrEsc] at h
          | cons e r2 =>
            rw [scanStrEsc] at h
            rw [List.cons_append, scanStrEsc]
            by_cases hesc : isEscC e = true
            · rw [if_pos hesc] at h ⊢
              rcases hs : scanStr r2 with ⟨res2, fl2⟩
              rw [hs] at h
              have hfl2 : fl2 = false := by
                have hsnd := strScanAdd_snd 2 (res2, fl2)
                rw [h] at hsnd
                exact hsnd.symm
              subst hfl2
              rw [ih r2 (by simp only [List.length_cons] at hlen; omega)
                res2 hs]
              exact h
            · rw [if_neg hesc] at h ⊢
              exact h
        · rw [if_neg hb] at h ⊢
          rcases hs : scanStr r with ⟨res2, fl2⟩
          rw [hs] at h
          have hfl2 : fl2 = false := by
            have hsnd := strScanAdd_snd 1 (res2, fl2)
            rw [h] at hsnd
            exact hsnd.symm
          subst hfl2
          rw [ih r (by simp only [List.length_cons] at hlen; omega) res2 hs]
          exact h

theorem scanStr_len_lt :
    ∀ (N : Nat) (u : Chars), u.length ≤ N → ∀ n,
      (scanStr u = (.ok n, false) → n < u.length) ∧
      (scanStr u = (.bad n, false) → n < u.length) := by
  intro N
  induction N with
  | zero =>
    intro u hlen n
    have hu : u = [] := List.length_eq_zero.mp (by omega)
    subst hu
    constructor <;> intro h <;> simp [scanStr] at h
  | succ N ih =>
    intro u hlen n
    cases u with
    | nil => constructor <;> intro h <;> simp [scanStr] at h
    | cons c r =>
      have hstep : ∀ (k : Nat) (w : Chars), w.length ≤ N →
          (strScanAdd k (scanStr w) = (.ok n, false) → n < w.length + k) ∧
          (strScanAdd k (scanStr w) = (.bad n, false) → n < w.length + k) := by
        intro k w hw
        rcases hs : scanStr w with ⟨res2, fl2⟩
        constructor <;> intro h <;>
          cases res2 <;> simp only [strScanAdd] at h <;>
          rw [Prod.mk.injEq] at h <;> obtain ⟨h1, h2⟩ := h
        case mk.left.ok.intro n2 =>
          have hn2 := (ih w hw n2).1 (by rw [hs, h2])
          injection h1 with h1
          omega
        case mk.left.bad.intro n2 => cases h1
        case mk.left.todo.intro => cases h1
        case mk.left.over.intro => cases h1
        case mk.right.ok.intro n2 => cases h1
        case mk.right.bad.intro n2 =>
          have hn2 := (ih w hw n2).2 (by rw [hs, h2])
          injection h1 with h1
          omega
        case mk.right.todo.intro => cases h1
        case mk.right.over.intro => cases h1
      have hlr : r.length ≤ N := by
        simp only [List.length_cons] at hlen
        omega
      constructor <;> intro h <;> rw [scanStr] at h
      · by_cases hq : c = '"'
        · rw [if_pos hq] at h
          rw [Prod.mk.injEq] at h
          obtain ⟨h1, _⟩ := h
          cases h1
          simp
        · rw [if_neg hq] at h
          by_cases hb : c = '\\'
          · rw [if_pos hb] at h
            cases r with
            | nil => simp [scanStrEsc] at h
            | cons e r2 =>
              rw [scanStrEsc] at h
              by_cases hesc : isEscC e = true
              · rw [if_pos hesc] at h
                have hk := (hstep 2 r2
                  (by simp only [List.length_cons] at hlr; omega)).1 h
                simp only [List.length_cons]
                omega
              · rw [if_neg hesc] at h
                by_cases hu : e = 'u'
                · rw [if_pos hu] at h
                  cases h
                · rw [if_neg hu] at h
                  cases h
          · rw [if_neg hb] at h
            have hk := (hstep 1 r hlr).1 h
            simp only [List.length_cons]
            omega
      · by_cases hq : c = '"'
        · rw [if_pos hq] at h
          rw [Prod.mk.injEq] at h
          obtain ⟨h1, _⟩ := h
          cases h1
        · rw [if_neg hq] at h
          by_cases hb : c = '\\'
          · rw [if_pos hb] at h
            cases r with
            | nil => simp [scanStrEsc] at h
            | cons e r2 =>
              rw [scanStrEsc] at h
              by_cases hesc : isEscC e = true
              · rw [if_pos hesc] at h
                have hk := (hstep 2 r2
                  (by simp only [List.length_cons] at hlr; omega)).2 h
                simp only [List.length_cons]
                omega
              · rw [if_neg hesc] at h
                by_cases hu : e = 'u'
                · rw [if_pos hu] at h
                  cases h
                · rw [if_neg hu] at h
                  rw [Prod.mk.injEq] at h
                  obtain ⟨h1, _⟩ := h
                  cases h1
                  simp
          · rw [if_neg hb] at h
            have hk := (hstep 1 r hlr).2 h
            simp only [List.length_cons]
            omega

end CJson

namespace CJson

theorem numSpan_append (v : Chars) (c : Char) (r : Chars)
    (h : (numSpan c r).2 = false) : numSpan c (r ++ v) = numSpan c r := by
  by_cases hc : c = '0'
  · simp [numSpan, hc]
  · rw [numSpan, if_neg hc] at h
    rcases hda : digitsAcc r 0 with ⟨n1, v1, f1⟩
    rw [hda] at h
    simp only at h
    rw [numSpan, numSpan]
    simp only [if_neg hc]
    rw [digitsAcc_append v r 0 n1 v1 (by rw [hda, h]), hda, h]

theorem peekAt_snd_false_lt {u : Chars} {i : Nat}
    (h : (peekAt u i).2 = false) : i < u.length := by
  have hp : peekAt u i = ((peekAt u i).1, false) := by
    rw [← h]
  exact peekAt_flag_false_lt hp

theorem strtolM_cons_append (v : Chars) (c : Char) (r : Chars) (val : Int)
    (h : strtolM (c :: r) = (val, false)) :
    strtolM (c :: (r ++ v)) = (val, false) := by
  have hap := strtolM_append v (c :: r) val h
  rw [List.cons_append] at hap
  exact hap

theorem strtodM_cons_append (v : Chars) (c : Char) (r : Chars) (q : Rat)
    (h : strtodM (c :: r) = (q, false)) :
    strtodM (c :: (r ++ v)) = (q, false) := by
  have hap := strtodM_append v (c :: r) q h
  rw [List.cons_append] at hap
  exact hap

theorem peekAt_cons_append (v : Chars) (c : Char) (r : Chars) (i : Nat)
    (hi : i < (c :: r).length) :
    peekAt (c :: (r ++ v)) i = peekAt (c :: r) i := by
  have hap := peekAt_append v (c :: r) i hi
  rw [List.cons_append] at hap
  exact hap

/-- The number case of the lexer never changes when text is appended,
provided its scan never inspected the terminator. -/
theorem lexNum_append (v : Chars) (c : Char) (r : Chars)
    (h : (lexNum c r).touched = false) : lexNum c (r ++ v) = lexNum c r := by
  rw [lexNum] at h
  by_cases hcond : ((peekAt (c :: r) (numTokLen c r)).1 = '.' &&
      isDigitC (peekAt (c :: r) (numTokLen c r + 1)).1) = true
  · rw [if_pos hcond] at h
    simp only [Bool.or_eq_false_iff] at h
    obtain ⟨⟨⟨⟨⟨hsp, hsv⟩, hp1⟩, hp2⟩, hfr⟩, hdv⟩ := h
    have hspn := numSpan_append v c r hsp
    have htl : numTokLen c (r ++ v) = numTokLen c r := by
      rw [numTokLen, numTokLen, hspn]
    rcases hsvv : strtolM (c :: r) with ⟨sv1, sv2⟩
    rw [hsvv] at hsv
    simp only at hsv
    subst hsv
    rcases hdvv : strtodM (c :: r) with ⟨dv1, dv2⟩
    rw [hdvv] at hdv
    simp only at hdv
    subst hdv
    have hp1lt := peekAt_snd_false_lt hp1
    have hp2lt := peekAt_snd_false_lt hp2
    have hpk1 := peekAt_cons_append v c r (numTokLen c r) hp1lt
    have hpk2 := peekAt_cons_append v c r (numTokLen c r + 1) hp2lt
    have hdrop : (c :: (r ++ v)).drop (numTokLen c r + 2)
        = (c :: r).drop (numTokLen c r + 2) ++ v := by
      rw [← List.cons_append]
      exact List.drop_append_of_le_length (by simpa using hp2lt)
    rcases hfrv : digitsAcc ((c :: r).drop (numTokLen c r + 2)) 0
      with ⟨fn, fv, ff⟩
    rw [hfrv] at hfr
    simp only at hfr
    subst hfr
    rw [lexNum, htl, hpk1, hpk2, if_pos hcond, lexNum, if_pos hcond]
    rw [hdrop,
      digitsAcc_append v ((c :: r).drop (numTokLen c r + 2)) 0 fn fv hfrv,
      hfrv]
    rw [strtolM_cons_append v c r sv1 hsvv, hsvv,
      strtodM_cons_append v c r dv1 hdvv, hdvv,
      hspn]
  · rw [if_neg hcond] at h
    simp only [Bool.or_eq_false_iff] at h
    obtain ⟨⟨⟨hsp, hsv⟩, hp1⟩, hlast⟩ := h
    have hspn := numSpan_append v c r hsp
    have htl : numTokLen c (r ++ v) = numTokLen c r := by
      rw [numTokLen, numTokLen, hspn]
    rcases hsvv : strtolM (c :: r) with ⟨sv1, sv2⟩
    rw [hsvv] at hsv
    simp only at hsv
    subst hsv
    have hp1lt := peekAt_snd_false_lt hp1
    have hpk1 := peekAt_cons_append v c r (numTokLen c r) hp1lt
    by_cases hdot : (peekAt (c :: r) (numTokLen c r)).1 = '.'
    · -- the second look-ahead was evaluated; its flag is false
      have hp2f : (peekAt (c :: r) (numTokLen c r + 1)).2 = false := by
        rw [decide_eq_true hdot] at hlast
        simpa using hlast
      have hp2lt := peekAt_snd_false_lt hp2f
      have hpk2 := peekAt_cons_append v c r (numTokLen c r + 1) hp2lt
      rw [lexNum, htl, hpk1, hpk2, if_neg hcond, lexNum, if_neg hcond]
      rw [strtolM_cons_append v c r sv1 hsvv, hsvv, hspn]
    · -- first look-ahead is not '.', so the condition is false either way
      have hcond' : ((peekAt (c :: (r ++ v)) (numTokLen c (r ++ v))).1 = '.' &&
          isDigitC (peekAt (c :: (r ++ v)) (numTokLen c (r ++ v) + 1)).1)
            = false := by
        rw [htl, hpk1]
        simp [hdot]
      rw [lexNum, hcond']
      simp only [Bool.false_eq_true, if_false]
      rw [lexNum, if_neg hcond]
      rw [htl, hpk1, strtolM_cons_append v c r sv1 hsvv, hsvv, hspn]
      simp [hdot]

end CJson

namespace CJson

theorem lexNum_len_le (c : Char) (r : Chars)
    (h : (lexNum c r).touched = false) :
    (lexNum c r).len ≤ (c :: r).length := by
  rw [lexNum] at h ⊢
  by_cases hcond : ((peekAt (c :: r) (numTokLen c r)).1 = '.' &&
      isDigitC (peekAt (c :: r) (numTokLen c r + 1)).1) = true
  · rw [if_pos hcond] at h ⊢
    simp only [Bool.or_eq_false_iff] at h
    obtain ⟨⟨⟨⟨⟨_, _⟩, _⟩, hp2⟩, hfr⟩, _⟩ := h
    have hp2lt := peekAt_snd_false_lt hp2
    rcases hfrv : digitsAcc ((c :: r).drop (numTokLen c r + 2)) 0
      with ⟨fn, fv, ff⟩
    rw [hfrv] at hfr
    simp only at hfr
    subst hfr
    have hflt := digitsAcc_flag_false_lt _ 0 fn fv hfrv
    rw [List.length_drop] at hflt
    simp only [hfrv]
    omega
  · rw [if_neg hcond] at h ⊢
    simp only [Bool.or_eq_false_iff] at h
    obtain ⟨⟨⟨_, _⟩, hp1⟩, _⟩ := h
    have hp1lt := peekAt_snd_false_lt hp1
    simp only
    omega

theorem lexOne_append (v u : Chars) (o : LexOut) (h : lexOne u = some o)
    (ht : o.touched = false) : lexOne (u ++ v) = some o := by
  cases u with
  | nil =>
    rw [lexOne] at h
    rw [Option.some_inj] at h
    rw [← h] at ht
    cases ht
  | cons c r =>
    rw [lexOne] at h
    rw [List.cons_append, lexOne]
    by_cases h1 : (c = '-' || isDigitC c) = true
    · rw [if_pos h1] at h ⊢
      rw [Option.some_inj] at h
      subst h
      rw [lexNum_append v c r ht]
    · rw [if_neg h1] at h ⊢
      by_cases h2 : c = 'f'
      · rw [if_pos h2] at h ⊢
        rcases hm : matchLit (c :: r) ['f', 'a', 'l', 's', 'e'] with ⟨mb, mf⟩
        rw [hm] at h
        have hmf : mf = false := by
          by_cases hmb : mb = true
          · rw [hmb] at h
            rw [if_pos rfl] at h
            rw [Option.some_inj] at h
            rw [← h] at ht
            exact ht
          · rw [if_neg (by simpa using hmb)] at h
            rw [Option.some_inj] at h
            rw [← h] at ht
            exact ht
        subst hmf
        have hap := matchLit_append v ['f', 'a', 'l', 's', 'e'] (c :: r) mb hm
        rw [List.cons_append] at hap
        rw [hap]
        exact h
      · rw [if_neg h2] at h ⊢
        by_cases h3 : c = 'n'
        · rw [if_pos h3] at h ⊢
          rcases hm : matchLit (c :: r) ['n', 'u', 'l', 'l'] with ⟨mb, mf⟩
          rw [hm] at h
          have hmf : mf = false := by
            by_cases hmb : mb = true
            · rw [hmb] at h
              rw [if_pos rfl] at h
              rw [Option.some_inj] at h
              rw [← h] at ht
              exact ht
            · rw [if_neg (by simpa using hmb)] at h
              rw [Option.some_inj] at h
              rw [← h] at ht
              exact ht
          subst hmf
          have hap := matchLit_append v ['n', 'u', 'l', 'l'] (c :: r) mb hm
          rw [List.cons_append] at hap
          rw [hap]
          exact h
        · rw [if_neg h3] at h ⊢
          by_cases h4 : c = 't'
          · rw [if_pos h4] at h ⊢
            rcases hm : matchLit (c :: r) ['t', 'r', 'u', 'e'] with ⟨mb, mf⟩
            rw [hm] at h
            have hmf : mf = false := by
              by_cases hmb : mb = true
              · rw [hmb] at h
                rw [if_pos rfl] at h
                rw [Option.some_inj] at h
                rw [← h] at ht
                exact ht
              · rw [if_neg (by simpa using hmb)] at h
                rw [Option.some_inj] at h
                rw [← h] at ht
                exact ht
            subst hmf
            have hap := matchLit_append v ['t', 'r', 'u', 'e'] (c :: r) mb hm
            rw [List.cons_append] at hap
            rw [hap]
            exact h
          · rw [if_neg h4] at h ⊢
            by_cases h5 : c = ','
            · rw [if_pos h5] at h ⊢
              exact h
            · rw [if_neg h5] at h ⊢
              by_cases h6 : c = ':'
              · rw [if_pos h6] at h ⊢
                exact h
              · rw [if_neg h6] at h ⊢
                by_cases h7 : c = '['
                · rw [if_pos h7] at h ⊢
                  exact h
                · rw [if_neg h7] at h ⊢
                  by_cases h8 : c = ']'
                  · rw [if_pos h8] at h ⊢
                    exact h
                  · rw [if_neg h8] at h ⊢
                    by_cases h9 : c = '{'
                    · rw [if_pos h9] at h ⊢
                      exact h
                    · rw [if_neg h9] at h ⊢
                      by_cases h10 : c = '}'
                      · rw [if_pos h10] at h ⊢
                        exact h
                      · rw [if_neg h10] at h ⊢
                        by_cases h11 : c = '"'
                        · rw [if_pos h11] at h ⊢
                          rcases hs : scanStr r with ⟨res, fl⟩
                          rw [hs] at h
                          cases res with
                          | ok n =>
                            rw [Option.some_inj] at h
                            rw [← h] at ht
                            simp only at ht
                            subst ht
                            rw [scanStr_append v r.length r (le_refl _)
                              (.ok n) hs]
                            exact h ▸ rfl
                          | bad n =>
                            rw [Option.some_inj] at h
                            rw [← h] at ht
                            simp only at ht
                            subst ht
                            rw [scanStr_append v r.length r (le_refl _)
                              (.bad n) hs]
                            exact h ▸ rfl
                          | todo => cases h
                          | over => cases h
                        · rw [if_neg h11] at h ⊢
                          exact h

theorem lexOne_len_le (u : Chars) (o : LexOut) (h : lexOne u = some o)
    (ht : o.touched = false) : o.len ≤ u.length := by
  cases u with
  | nil =>
    rw [lexOne, Option.some_inj] at h
    rw [← h] at ht
    cases ht
  | cons c r =>
    rw [lexOne] at h
    by_cases h1 : (c = '-' || isDigitC c) = true
    · rw [if_pos h1, Option.some_inj] at h
      subst h
      exact lexNum_len_le c r ht
    · rw [if_neg h1] at h
      by_cases h2 : c = 'f'
      · rw [if_pos h2] at h
        rcases hm : matchLit (c :: r) ['f', 'a', 'l', 's', 'e'] with ⟨mb, mf⟩
        rw [hm] at h
        by_cases hmb : mb = true
        · rw [hmb, if_pos rfl, Option.some_inj] at h
          have hle := matchLit_true_le ['f', 'a', 'l', 's', 'e'] (c :: r) mf
            (by rw [hm, hmb])
          rw [← h]
          simpa using hle
        · rw [if_neg (by simpa using hmb), Option.some_inj] at h
          rw [← h]
          simp
      · rw [if_neg h2] at h
        by_cases h3 : c = 'n'
        · rw [if_pos h3] at h
          rcases hm : matchLit (c :: r) ['n', 'u', 'l', 'l'] with ⟨mb, mf⟩
          rw [hm] at h
          by_cases hmb : mb = true
          · rw [hmb, if_pos rfl, Option.some_inj] at h
            have hle := matchLit_true_le ['n', 'u', 'l', 'l'] (c :: r) mf
              (by rw [hm, hmb])
            rw [← h]
            simpa using hle
          · rw [if_neg (by simpa using hmb), Option.some_inj] at h
            rw [← h]
            simp
        · rw [if_neg h3] at h
          by_cases h4 : c = 't'
          · rw [if_pos h4] at h
            rcases hm : matchLit (c :: r) ['t', 'r', 'u', 'e'] with ⟨mb, mf⟩
            rw [hm] at h
            by_cases hmb : mb = true
            · rw [hmb, if_pos rfl, Option.some_inj] at h
              have hle := matchLit_true_le ['t', 'r', 'u', 'e'] (c :: r) mf
                (by rw [hm, hmb])
              rw [← h]
              simpa using hle
            · rw [if_neg (by simpa using hmb), Option.some_inj] at h
              rw [← h]
              simp
          · rw [if_neg h4] at h
            by_cases h5 : c = ','
            · rw [if_pos h5, Option.some_inj] at h
              rw [← h]
              simp
            · rw [if_neg h5] at h
              by_cases h6 : c = ':'
              · rw [if_pos h6, Option.some_inj] at h
                rw [← h]
                simp
              · rw [if_neg h6] at h
                by_cases h7 : c = '['
                · rw [if_pos h7, Option.some_inj] at h
                  rw [← h]
                  simp
                · rw [if_neg h7] at h
                  by_cases h8 : c = ']'
                  · rw [if_pos h8, Option.some_inj] at h
                    rw [← h]
                    simp
                  · rw [if_neg h8] at h
                    by_cases h9 : c = '{'
                    · rw [if_pos h9, Option.some_inj] at h
                      rw [← h]
                      simp
                    · rw [if_neg h9] at h
                      by_cases h10 : c = '}'
                      · rw [if_pos h10, Option.some_inj] at h
                        rw [← h]
                        simp
                      · rw [if_neg h10] at h
                        by_cases h11 : c = '"'
                        · rw [if_pos h11] at h
                          rcases hs : scanStr r with ⟨res, fl⟩
                          rw [hs] at h
                          cases res with
                          | ok n =>
                            rw [Option.some_inj] at h
                            rw [← h] at ht ⊢
                            simp only at ht ⊢
                            subst ht
                            have := (scanStr_len_lt r.length r
                              (le_refl _) n).1 hs
                            simp only [List.length_cons]
                            omega
                          | bad n =>
                            rw [Option.some_inj] at h
                            rw [← h] at ht ⊢
                            simp only at ht ⊢
                            subst ht
                            have := (scanStr_len_lt r.length r
                              (le_refl _) n).2 hs
                            simp only [List.length_cons]
                            omega
                          | todo => cases h
                          | over => cases h
                        · rw [if_neg h11, Option.some_inj] at h
                          rw [← h]
                          simp

end CJson

namespace CJson

/-- Parser-state invariant tying the cursor and the materialized token to
the original (pre-append) input. -/
def Inv (s : Chars) (st : PState) : Prop :=
  st.loc ≤ s.length ∧ st.tokStart + st.tokLen ≤ s.length

theorem inv_init (s : Chars) : Inv s initPState :=
  ⟨Nat.zero_le _, Nat.zero_le _⟩

theorem readTok_ext (s t : Chars) (st st' : PState)
    (h : cjson_read_next_token s st = some st')
    (hf : st'.sawEnd = false) (hinv : Inv s st) :
    cjson_read_next_token (s ++ t) st = some st' ∧ Inv s st' := by
  rw [cjson_read_next_token] at h
  rcases ho : lexOne (s.drop st.loc) with _ | o
  · rw [ho] at h
    cases h
  · rw [ho, Option.some_inj] at h
    have htch : o.touched = false := by
      rw [← h] at hf
      simp only [Bool.or_eq_false_iff] at hf
      exact hf.2
    have hlen := lexOne_len_le _ o ho htch
    rw [List.length_drop] at hlen
    refine ⟨?_, ?_⟩
    · rw [cjson_read_next_token, List.drop_append_of_le_length hinv.1,
        lexOne_append t _ o ho htch]
      exact congrArg some h
    · rw [← h]
      obtain ⟨hi1, hi2⟩ := hinv
      refine ⟨?_, ?_⟩
      · show st.loc + o.len ≤ s.length
        omega
      · show st.loc + o.len ≤ s.length
        omega

theorem peek_ext (s t : Chars) (st st' : PState)
    (h : cjson_lexer_peek s st = some st')
    (hf : st'.sawEnd = false) (hinv : Inv s st) :
    cjson_lexer_peek (s ++ t) st = some st' ∧ Inv s st' := by
  rw [cjson_lexer_peek] at h
  rw [cjson_lexer_peek]
  by_cases hn : st.tokType = .NONE
  · rw [if_pos hn] at h ⊢
    exact readTok_ext s t st st' h hf hinv
  · rw [if_neg hn] at h ⊢
    rw [Option.some_inj] at h
    subst h
    exact ⟨rfl, hinv⟩

theorem pop_ext (s t : Chars) (st : PState) (tok : TokC) (st' : PState)
    (h : cjson_lexer_pop s st = some (tok, st'))
    (hf : st'.sawEnd = false) (hinv : Inv s st) :
    cjson_lexer_pop (s ++ t) st = some (tok, st') ∧ Inv s st' ∧
      tok.start + tok.len ≤ s.length := by
  rw [cjson_lexer_pop] at h
  rcases hp : cjson_lexer_peek s st with _ | st1
  · rw [hp] at h
    cases h
  · rw [hp, Option.some_inj, Prod.mk.injEq] at h
    have hf1 : st1.sawEnd = false := by
      rw [← h.2] at hf
      exact hf
    obtain ⟨hpe, hinv1⟩ := peek_ext s t st st1 hp hf1 hinv
    refine ⟨?_, ?_, ?_⟩
    · rw [cjson_lexer_pop, hpe]
      show some (st1.curTok, { st1 with tokType := TokType.NONE })
        = some (tok, st')
      rw [h.1, h.2]
    · rw [← h.2]
      exact hinv1
    · rw [← h.1]
      exact hinv1.2

theorem ws_ext (s t : Chars) (st : PState)
    (hf : (cjson_parse_ws s st).sawEnd = false) (hinv : Inv s st) :
    cjson_parse_ws (s ++ t) st = cjson_parse_ws s st ∧
      Inv s (cjson_parse_ws s st) := by
  have hfl : (wsSpan (s.drop st.loc)).2 = false := by
    rw [cjson_parse_ws] at hf
    simp only [Bool.or_eq_false_iff] at hf
    exact hf.2
  rcases hw : wsSpan (s.drop st.loc) with ⟨n, fl⟩
  rw [hw] at hfl
  simp only at hfl
  subst hfl
  have hlt := wsSpan_flag_false_lt _ n hw
  rw [List.length_drop] at hlt
  constructor
  · rw [cjson_parse_ws, cjson_parse_ws,
      List.drop_append_of_le_length hinv.1,
      wsSpan_append t _ n hw, hw]
  · rw [cjson_parse_ws, hw]
    exact ⟨by simp only; omega, by simp only; exact hinv.2⟩

theorem slice_append (s t : Chars) (a b : Nat) (hb : a + b ≤ s.length) :
    ((s ++ t).drop a).take b = (s.drop a).take b := by
  rw [List.drop_append_of_le_length (by omega),
    List.take_append_of_le_length (by rw [List.length_drop]; omega)]

theorem extract_ext (s t : Chars) (start len : Nat)
    (h : start + len ≤ s.length) :
    cjson_extract_string (s ++ t) start len
      = cjson_extract_string s start len := by
  rw [cjson_extract_string, cjson_extract_string]
  by_cases h2 : 2 ≤ len
  · rw [slice_append s t (start + 1) (len - 2) (by omega)]
  · have hz : len - 2 = 0 := by omega
    rw [hz]
    simp

/-! Monotonicity of the terminator flag: once a scan has inspected the
terminator, every later state still records it. -/

theorem readTok_mono (s : Chars) (st st' : PState)
    (h : cjson_read_next_token s st = some st') (ht : st.sawEnd = true) :
    st'.sawEnd = true := by
  rw [cjson_read_next_token] at h
  rcases ho : lexOne (s.drop st.loc) with _ | o
  · rw [ho] at h
    cases h
  · rw [ho, Option.some_inj] at h
    rw [← h]
    simp [ht]

theorem peek_mono (s : Chars) (st st' : PState)
    (h : cjson_lexer_peek s st = some st') (ht : st.sawEnd = true) :
    st'.sawEnd = true := by
  rw [cjson_lexer_peek] at h
  by_cases hn : st.tokType = .NONE
  · rw [if_pos hn] at h
    exact readTok_mono s st st' h ht
  · rw [if_neg hn, Option.some_inj] at h
    rw [← h]
    exact ht

theorem pop_mono (s : Chars) (st : PState) (tok : TokC) (st' : PState)
    (h : cjson_lexer_pop s st = some (tok, st')) (ht : st.sawEnd = true) :
    st'.sawEnd = true := by
  rw [cjson_lexer_pop] at h
  rcases hp : cjson_lexer_peek s st with _ | st1
  · rw [hp] at h
    cases h
  · rw [hp, Option.some_inj, Prod.mk.injEq] at h
    rw [← h.2]
    exact peek_mono s st st1 hp ht

theorem ws_mono (s : Chars) (st : PState) (ht : st.sawEnd = true) :
    (cjson_parse_ws s st).sawEnd = true := by
  rw [cjson_parse_ws]
  simp [ht]

theorem flag_false_back {b : Bool} (h : b = true → False) : b = false := by
  cases b with
  | false => rfl
  | true => exact absurd rfl h

end CJson

namespace CJson

/-- The terminator flag is monotone through every parser function: once
set, it stays set. -/
theorem parse_mono_all (s : Chars) : ∀ fuel : Nat,
    (∀ st res st', cjson_parse_value s fuel st = some (res, st') →
      st.sawEnd = true → st'.sawEnd = true) ∧
    (∀ st res st', cjson_parse_object s fuel st = some (res, st') →
      st.sawEnd = true → st'.sawEnd = true) ∧
    (∀ map st m' st', cjson_parse_members s fuel map st = some (m', st') →
      st.sawEnd = true → st'.sawEnd = true) ∧
    (∀ map st m' st',
      cjson_parse_members_loop s fuel map st = some (m', st') →
      st.sawEnd = true → st'.sawEnd = true) ∧
    (∀ map st m' st', cjson_parse_member s fuel map st = some (m', st') →
      st.sawEnd = true → st'.sawEnd = true) ∧
    (∀ st res st', cjson_parse_array s fuel st = some (res, st') →
      st.sawEnd = true → st'.sawEnd = true) ∧
    (∀ el st el' st', cjson_parse_array_loop s fuel el st = some (el', st') →
      st.sawEnd = true → st'.sawEnd = true) ∧
    (∀ st res st', cjson_parse_element s fuel st = some (res, st') →
      st.sawEnd = true → st'.sawEnd = true) := by
  intro fuel
  induction fuel with
  | zero =>
    refine ⟨?_, ?_, ?_, ?_, ?_, ?_, ?_, ?_⟩
    · intro st res st' h
      rw [cjson_parse_value] at h
      cases h
    · intro st res st' h
      rw [cjson_parse_object] at h
      cases h
    · intro map st m' st' h
      rw [cjson_parse_members] at h
      cases h
    · intro map st m' st' h
      rw [cjson_parse_members_loop] at h
      cases h
    · intro map st m' st' h
      rw [cjson_parse_member] at h
      cases h
    · intro st res st' h
      rw [cjson_parse_array] at h
      cases h
    · intro el st el' st' h
      rw [cjson_parse_array_loop] at h
      cases h
    · intro st res st' h
      rw [cjson_parse_element] at h
      cases h
  | succ f ih =>
    obtain ⟨ihV, ihO, ihM, ihML, ihMem, ihA, ihAL, ihE⟩ := ih
    refine ⟨?_, ?_, ?_, ?_, ?_, ?_, ?_, ?_⟩
    · -- parse_value
      intro st res st' h htrue
      rw [cjson_parse_value] at h
      split at h
      · cases h
      · rename_i stP hp
        have hpm := peek_mono s st stP hp htrue
        split at h
        · exact ihO stP res st' h hpm
        · exact ihA stP res st' h hpm
        · -- STRING
          split at h
          · cases h
          · rename_i strv hex
            split at h
            · cases h
            · rename_i tok st2 hpp
              rw [Option.some_inj, Prod.mk.injEq] at h
              rw [← h.2]
              exact pop_mono s stP tok st2 hpp hpm
        · -- INTEGER
          split at h
          · cases h
          · rename_i tok st2 hpp
            rw [Option.some_inj, Prod.mk.injEq] at h
            rw [← h.2]
            exact pop_mono s stP tok st2 hpp hpm
        · -- FLOAT
          split at h
          · cases h
          · rename_i tok st2 hpp
            rw [Option.some_inj, Prod.mk.injEq] at h
            rw [← h.2]
            exact pop_mono s stP tok st2 hpp hpm
        · -- TRUE
          split at h
          · cases h
          · rename_i tok st2 hpp
            rw [Option.some_inj, Prod.mk.injEq] at h
            rw [← h.2]
            exact pop_mono s stP tok st2 hpp hpm
        · -- FALSE
          split at h
          · cases h
          · rename_i tok st2 hpp
            rw [Option.some_inj, Prod.mk.injEq] at h
            rw [← h.2]
            exact pop_mono s stP tok st2 hpp hpm
        · -- NULL
          split at h
          · cases h
          · rename_i tok st2 hpp
            rw [Option.some_inj, Prod.mk.injEq] at h
            rw [← h.2]
            exact pop_mono s stP tok st2 hpp hpm
        · -- default
          rw [Option.some_inj, Prod.mk.injEq] at h
          rw [← h.2]
          exact hpm
    · -- parse_object
      intro st res st' h htrue
      rw [cjson_parse_object] at h
      split at h
      · cases h
      · rename_i tok1 st1 hp1
        split at h
        · cases h
        · rename_i stP hp2
          have hm3 := peek_mono s _ stP hp2
            (ws_mono s st1 (pop_mono s st tok1 st1 hp1 htrue))
          split at h
          · cases h
          · rename_i map1 st3 hms
            have hm4 : st3.sawEnd = true := by
              by_cases hc : ¬stP.err ∧ stP.tokType ≠ TokType.RBRACE
              · rw [if_pos hc] at hms
                exact ihM _ stP map1 st3 hms hm3
              · rw [if_neg hc, Option.some_inj, Prod.mk.injEq] at hms
                rw [← hms.2]
                exact hm3
            split at h
            · cases h
            · rename_i tok4 st4 hp3
              have hm5 := pop_mono s st3 tok4 st4 hp3 hm4
              split at h
              · rw [Option.some_inj, Prod.mk.injEq] at h
                rw [← h.2]
                exact hm5
              · rw [Option.some_inj, Prod.mk.injEq] at h
                rw [← h.2]
                exact hm5
    · -- parse_members
      intro map st m' st' h htrue
      rw [cjson_parse_members] at h
      split at h
      · cases h
      · rename_i map1 st1 h1
        exact ihML map1 st1 m' st' h (ihMem map st map1 st1 h1 htrue)
    · -- parse_members_loop
      intro map st m' st' h htrue
      rw [cjson_parse_members_loop] at h
      split at h
      · rw [Option.some_inj, Prod.mk.injEq] at h
        rw [← h.2]
        exact htrue
      · split at h
        · cases h
        · rename_i stP hp
          have hm1 := peek_mono s st stP hp htrue
          split at h
          · split at h
            · cases h
            · rename_i tok st1 hpp
              split at h
              · cases h
              · rename_i map2 st2 h2
                exact ihML map2 st2 m' st' h
                  (ihMem map st1 map2 st2 h2 (pop_mono s stP tok st1 hpp hm1))
          · rw [Option.some_inj, Prod.mk.injEq] at h
            rw [← h.2]
            exact hm1
    · -- parse_member
      intro map st m' st' h htrue
      rw [cjson_parse_member] at h
      split at h
      · cases h
      · rename_i strTok st2 hp1
        have hm1 := pop_mono s _ strTok st2 hp1 (ws_mono s st htrue)
        split at h
        · rw [Option.some_inj, Prod.mk.injEq] at h
          rw [← h.2]
          exact hm1
        · split at h
          · cases h
          · rename_i stP hp2
            have hm3 := peek_mono s _ stP hp2 (ws_mono s st2 hm1)
            split at h
            · rw [Option.some_inj, Prod.mk.injEq] at h
              rw [← h.2]
              exact hm3
            · split at h
              · cases h
              · rename_i tok4 st4 hp3
                split at h
                · cases h
                · rename_i elem st5 h5
                  rw [Option.some_inj, Prod.mk.injEq] at h
                  rw [← h.2]
                  exact ihE st4 elem st5 h5 (pop_mono s stP tok4 st4 hp3 hm3)
    · -- parse_array
      intro st res st' h htrue
      rw [cjson_parse_array] at h
      split at h
      · cases h
      · rename_i tok1 st1 hp1
        split at h
        · cases h
        · rename_i stP hp2
          have hm3 := peek_mono s _ stP hp2
            (ws_mono s st1 (pop_mono s st tok1 st1 hp1 htrue))
          split at h
          · split at h
            · cases h
            · rename_i e1 st3 h3
              split at h
              · cases h
              · rename_i elems st4 h4
                have hm5 := ihAL _ st3 elems st4 h4 (ihE stP e1 st3 h3 hm3)
                split at h
                · cases h
                · rename_i stP2 hp5
                  have hm6 := peek_mono s st4 stP2 hp5 hm5
                  split at h
                  · rw [Option.some_inj, Prod.mk.injEq] at h
                    rw [← h.2]
                    exact hm6
                  · split at h
                    · cases h
                    · rename_i tok6 st6 hp6
                      rw [Option.some_inj, Prod.mk.injEq] at h
                      rw [← h.2]
                      exact pop_mono s stP2 tok6 st6 hp6 hm6
          · split at h
            · cases h
            · rename_i tok6 st6 hp6
              rw [Option.some_inj, Prod.mk.injEq] at h
              rw [← h.2]
              exact pop_mono s stP tok6 st6 hp6 hm3
    · -- parse_array_loop
      intro el st el' st' h htrue
      rw [cjson_parse_array_loop] at h
      split at h
      · rw [Option.some_inj, Prod.mk.injEq] at h
        rw [← h.2]
        exact htrue
      · split at h
        · cases h
        · rename_i stP hp
          have hm1 := peek_mono s st stP hp htrue
          split at h
          · split at h
            · cases h
            · rename_i tok st1 hpp
              split at h
              · cases h
              · rename_i e2 st2 h2
                exact ihAL _ st2 el' st' h
                  (ihE st1 e2 st2 h2 (pop_mono s stP tok st1 hpp hm1))
          · rw [Option.some_inj, Prod.mk.injEq] at h
            rw [← h.2]
            exact hm1
    · -- parse_element
      intro st res st' h htrue
      rw [cjson_parse_element] at h
      split at h
      · cases h
      · rename_i v1 st1 h1
        rw [Option.some_inj, Prod.mk.injEq] at h
        rw [← h.2]
        exact ws_mono s st1 (ihV _ v1 st1 h1 (ws_mono s st htrue))

end CJson

namespace CJson

theorem flag_back {a b : Bool} (him : a = true → b = true)
    (hb : b = false) : a = false := by
  cases a with
  | false => rfl
  | true =>
    rw [him rfl] at hb
    cases hb

theorem slice2_append (s t : Chars) (a b : Nat) (hb : a + b ≤ s.length) :
    ((s ++ t).drop (a + 1)).take (b - 2) = (s.drop (a + 1)).take (b - 2) := by
  by_cases h1 : 1 ≤ b
  · exact slice_append s t (a + 1) (b - 2) (by omega)
  · have hz : b - 2 = 0 := by omega
    rw [hz]
    simp

/-- Locality: a parser run that never inspected the NUL terminator computes
the same result (and preserves the state invariant) on any extension of the
input. -/
theorem parse_ext_all (s t : Chars) : ∀ fuel : Nat,
    (∀ st res st', cjson_parse_value s fuel st = some (res, st') →
      st'.sawEnd = false → Inv s st →
      cjson_parse_value (s ++ t) fuel st = some (res, st') ∧ Inv s st') ∧
    (∀ st res st', cjson_parse_object s fuel st = some (res, st') →
      st'.sawEnd = false → Inv s st →
      cjson_parse_object (s ++ t) fuel st = some (res, st') ∧ Inv s st') ∧
    (∀ map st m' st', cjson_parse_members s fuel map st = some (m', st') →
      st'.sawEnd = false → Inv s st →
      cjson_parse_members (s ++ t) fuel map st = some (m', st') ∧
        Inv s st') ∧
    (∀ map st m' st',
      cjson_parse_members_loop s fuel map st = some (m', st') →
      st'.sawEnd = false → Inv s st →
      cjson_parse_members_loop (s ++ t) fuel map st = some (m', st') ∧
        Inv s st') ∧
    (∀ map st m' st', cjson_parse_member s fuel map st = some (m', st') →
      st'.sawEnd = false → Inv s st →
      cjson_parse_member (s ++ t) fuel map st = some (m', st') ∧
        Inv s st') ∧
    (∀ st res st', cjson_parse_array s fuel st = some (res, st') →
      st'.sawEnd = false → Inv s st →
      cjson_parse_array (s ++ t) fuel st = some (res, st') ∧ Inv s st') ∧
    (∀ el st el' st', cjson_parse_array_loop s fuel el st = some (el', st') →
      st'.sawEnd = false → Inv s st →
      cjson_parse_array_loop (s ++ t) fuel el st = some (el', st') ∧
        Inv s st') ∧
    (∀ st res st', cjson_parse_element s fuel st = some (res, st') →
      st'.sawEnd = false → Inv s st →
      cjson_parse_element (s ++ t) fuel st = some (res, st') ∧ Inv s st') := by
  intro fuel
  induction fuel with
  | zero =>
    refine ⟨?_, ?_, ?_, ?_, ?_, ?_, ?_, ?_⟩
    · intro st res st' h
      rw [cjson_parse_value] at h
      cases h
    · intro st res st' h
      rw [cjson_parse_object] at h
      cases h
    · intro map st m' st' h
      rw [cjson_parse_members] at h
      cases h
    · intro map st m' st' h
      rw [cjson_parse_members_loop] at h
      cases h
    · intro map st m' st' h
      rw [cjson_parse_member] at h
      cases h
    · intro st res st' h
      rw [cjson_parse_array] at h
      cases h
    · intro el st el' st' h
      rw [cjson_parse_array_loop] at h
      cases h
    · intro st res st' h
      rw [cjson_parse_element] at h
      cases h
  | succ f ih =>
    obtain ⟨ihV, ihO, ihM, ihML, ihMem, ihA, ihAL, ihE⟩ := ih
    refine ⟨?_, ?_, ?_, ?_, ?_, ?_, ?_, ?_⟩
    · -- parse_value
      intro st res st' h hf hinv
      rw [cjson_parse_value] at h
      split at h
      · cases h
      · rename_i stP hp
        cases htt : stP.tokType
        case ERROR | NONE | EOF | COLON | COMMA | RBRACE | RBRACK =>
          rw [htt] at h
          simp only [] at h
          rw [Option.some_inj, Prod.mk.injEq] at h
          obtain ⟨hres, hst⟩ := h
          have hfP : stP.sawEnd = false := by
            rw [hst]
            exact hf
          obtain ⟨hpe2, hinvP⟩ := peek_ext s t st stP hp hfP hinv
          refine ⟨?_, by rw [← hst]; exact hinvP⟩
          rw [cjson_parse_value, hpe2]
          simp only []
          rw [htt]
          show some ((none : Option CElem), stP) = some (res, st')
          rw [hres, hst]
        case LBRACE =>
          rw [htt] at h
          simp only [] at h
          have hfP : stP.sawEnd = false :=
            flag_back (fun hT => (parse_mono_all s f).2.1 stP res st' h hT) hf
          obtain ⟨hpe2, hinvP⟩ := peek_ext s t st stP hp hfP hinv
          obtain ⟨hoe, hinv2⟩ := ihO stP res st' h hf hinvP
          refine ⟨?_, hinv2⟩
          rw [cjson_parse_value, hpe2]
          simp only []
          rw [htt]
          exact hoe
        case LBRACK =>
          rw [htt] at h
          simp only [] at h
          have hfP : stP.sawEnd = false :=
            flag_back
              (fun hT => (parse_mono_all s f).2.2.2.2.2.1 stP res st' h hT) hf
          obtain ⟨hpe2, hinvP⟩ := peek_ext s t st stP hp hfP hinv
          obtain ⟨hoe, hinv2⟩ := ihA stP res st' h hf hinvP
          refine ⟨?_, hinv2⟩
          rw [cjson_parse_value, hpe2]
          simp only []
          rw [htt]
          exact hoe
        case STRING =>
          rw [htt] at h
          simp only [] at h
          split at h
          · cases h
          · rename_i strv hex
            split at h
            · cases h
            · rename_i tok st2 hpp
              rw [Option.some_inj, Prod.mk.injEq] at h
              obtain ⟨hres, hst⟩ := h
              have hf2 : st2.sawEnd = false := by
                rw [hst]
                exact hf
              have hfP : stP.sawEnd = false :=
                flag_back (fun hT => pop_mono s stP tok st2 hpp hT) hf2
              obtain ⟨hpe2, hinvP⟩ := peek_ext s t st stP hp hfP hinv
              obtain ⟨hppe, hinv2, _⟩ := pop_ext s t stP tok st2 hpp hf2 hinvP
              refine ⟨?_, by rw [← hst]; exact hinv2⟩
              rw [cjson_parse_value, hpe2]
              simp only []
              rw [htt]
              simp only []
              rw [extract_ext s t stP.tokStart stP.tokLen hinvP.2, hex]
              simp only []
              rw [hppe]
              simp only []
              rw [hres, hst]
        case INTEGER | FLOAT | TRUE | FALSE | NULL =>
          rw [htt] at h
          simp only [] at h
          split at h
          · cases h
          · rename_i tok st2 hpp
            rw [Option.some_inj, Prod.mk.injEq] at h
            obtain ⟨hres, hst⟩ := h
            have hf2 : st2.sawEnd = false := by
              rw [hst]
              exact hf
            have hfP : stP.sawEnd = false :=
              flag_back (fun hT => pop_mono s stP tok st2 hpp hT) hf2
            obtain ⟨hpe2, hinvP⟩ := peek_ext s t st stP hp hfP hinv
            obtain ⟨hppe, hinv2, _⟩ := pop_ext s t stP tok st2 hpp hf2 hinvP
            refine ⟨?_, by rw [← hst]; exact hinv2⟩
            rw [cjson_parse_value, hpe2]
            simp only []
            rw [htt]
            simp only []
            rw [hppe]
            simp only []
            rw [hres, hst]
    · -- parse_object
      intro st res st' h hf hinv
      rw [cjson_parse_object] at h
      split at h
      · cases h
      · rename_i tok1 st1 hp1
        split at h
        · cases h
        · rename_i stP hp2
          split at h
          · cases h
          · rename_i map1 st3 hms
            split at h
            · cases h
            · rename_i tok4 st4 hp3
              have hst : st4 = st' := by
                by_cases hc4 : tok4.type ≠ TokType.RBRACE
                · rw [if_pos hc4, Option.some_inj, Prod.mk.injEq] at h
                  exact h.2
                · rw [if_neg hc4, Option.some_inj, Prod.mk.injEq] at h
                  exact h.2
              have hf4 : st4.sawEnd = false := by
                rw [hst]
                exact hf
              have hf3 : st3.sawEnd = false :=
                flag_back (fun hT => pop_mono s st3 tok4 st4 hp3 hT) hf4
              have hfP : stP.sawEnd = false :=
                flag_back (fun hT => by
                  by_cases hc : ¬stP.err ∧ stP.tokType ≠ TokType.RBRACE
                  · rw [if_pos hc] at hms
                    exact (parse_mono_all s f).2.2.1 _ stP map1 st3 hms hT
                  · rw [if_neg hc, Option.some_inj, Prod.mk.injEq] at hms
                    rw [← hms.2]
                    exact hT) hf3
              have hfw : (cjson_parse_ws s st1).sawEnd = false :=
                flag_back (fun hT => peek_mono s _ stP hp2 hT) hfP
              have hf1 : st1.sawEnd = false :=
                flag_back (fun hT => ws_mono s st1 hT) hfw
              obtain ⟨hp1e, hinv1, _⟩ := pop_ext s t st tok1 st1 hp1 hf1 hinv
              obtain ⟨hwse, hinvw⟩ := ws_ext s t st1 hfw hinv1
              obtain ⟨hp2e, hinvP⟩ := peek_ext s t _ stP hp2 hfP hinvw
              have hmse : (if ¬stP.err ∧ stP.tokType ≠ TokType.RBRACE then
                    cjson_parse_members (s ++ t) f (List.replicate 64 []) stP
                  else some (List.replicate 64 [], stP))
                    = some (map1, st3) ∧ Inv s st3 := by
                by_cases hc : ¬stP.err ∧ stP.tokType ≠ TokType.RBRACE
                · rw [if_pos hc] at hms ⊢
                  exact ihM _ stP map1 st3 hms hf3 hinvP
                · rw [if_neg hc] at hms ⊢
                  rw [Option.some_inj, Prod.mk.injEq] at hms
                  refine ⟨by rw [hms.1, hms.2], ?_⟩
                  rw [← hms.2]
                  exact hinvP
              obtain ⟨hp3e, hinv4, _⟩ :=
                pop_ext s t st3 tok4 st4 hp3 hf4 hmse.2
              refine ⟨?_, by rw [← hst]; exact hinv4⟩
              rw [cjson_parse_object, hp1e]
              simp only []
              rw [hwse, hp2e]
              simp only []
              rw [hmse.1]
              simp only []
              rw [hp3e]
              simp only []
              by_cases hc4 : tok4.type ≠ TokType.RBRACE
              · rw [if_pos hc4] at h ⊢
                exact h
              · rw [if_neg hc4] at h ⊢
                exact h
    · -- parse_members
      intro map st m' st' h hf hinv
      rw [cjson_parse_members] at h
      split at h
      · cases h
      · rename_i map1 st1 h1
        have hf1 : st1.sawEnd = false :=
          flag_back
            (fun hT => (parse_mono_all s f).2.2.2.1 map1 st1 m' st' h hT) hf
        obtain ⟨h1e, hinv1⟩ := ihMem map st map1 st1 h1 hf1 hinv
        obtain ⟨h2e, hinv2⟩ := ihML map1 st1 m' st' h hf hinv1
        refine ⟨?_, hinv2⟩
        rw [cjson_parse_members, h1e]
        simp only []
        exact h2e
    · -- parse_members_loop
      intro map st m' st' h hf hinv
      rw [cjson_parse_members_loop] at h
      split at h
      · rename_i hErr
        rw [Option.some_inj, Prod.mk.injEq] at h
        obtain ⟨hm, hst⟩ := h
        refine ⟨?_, by rw [← hst]; exact hinv⟩
        rw [cjson_parse_members_loop, if_pos hErr, hm, hst]
      · rename_i hErr
        split at h
        · cases h
        · rename_i stP hp
          split at h
          · rename_i hc
            split at h
            · cases h
            · rename_i tok st1 hpp
              split at h
              · cases h
              · rename_i map2 st2 h2
                have hf2 : st2.sawEnd = false :=
                  flag_back (fun hT =>
                    (parse_mono_all s f).2.2.2.1 map2 st2 m' st' h hT) hf
                have hf1 : st1.sawEnd = false :=
                  flag_back (fun hT =>
                    (parse_mono_all s f).2.2.2.2.1 map st1 map2 st2 h2 hT) hf2
                have hfP : stP.sawEnd = false :=
                  flag_back (fun hT => pop_mono s stP tok st1 hpp hT) hf1
                obtain ⟨hpe, hinvP⟩ := peek_ext s t st stP hp hfP hinv
                obtain ⟨hppe, hinv1, _⟩ := pop_ext s t stP tok st1 hpp hf1 hinvP
                obtain ⟨h2e, hinv2⟩ := ihMem map st1 map2 st2 h2 hf2 hinv1
                obtain ⟨hLe, hinvL⟩ := ihML map2 st2 m' st' h hf hinv2
                refine ⟨?_, hinvL⟩
                rw [cjson_parse_members_loop, if_neg hErr, hpe]
                simp only []
                rw [if_pos hc, hppe]
                simp only []
                rw [h2e]
                simp only []
                exact hLe
          · rename_i hc
            rw [Option.some_inj, Prod.mk.injEq] at h
            obtain ⟨hm, hst⟩ := h
            have hfP : stP.sawEnd = false := by
              rw [hst]
              exact hf
            obtain ⟨hpe, hinvP⟩ := peek_ext s t st stP hp hfP hinv
            refine ⟨?_, by rw [← hst]; exact hinvP⟩
            rw [cjson_parse_members_loop, if_neg hErr, hpe]
            simp only []
            rw [if_neg hc, hm, hst]
    · -- parse_member
      intro map st m' st' h hf hinv
      rw [cjson_parse_member] at h
      split at h
      · cases h
      · rename_i strTok st2 hp1
        split at h
        · rename_i hty
          rw [Option.some_inj, Prod.mk.injEq] at h
          obtain ⟨hm, hst⟩ := h
          have hf2 : st2.sawEnd = false := by
            show ({ st2 with err := true } : PState).sawEnd = false
            rw [hst]
            exact hf
          have hfw : (cjson_parse_ws s st).sawEnd = false :=
            flag_back (fun hT => pop_mono s _ strTok st2 hp1 hT) hf2
          obtain ⟨hwse, hinvw⟩ := ws_ext s t st hfw hinv
          obtain ⟨hp1e, hinv2, _⟩ := pop_ext s t _ strTok st2 hp1 hf2 hinvw
          refine ⟨?_, ?_⟩
          · rw [cjson_parse_member, hwse, hp1e]
            simp only []
            rw [if_pos hty, hm, hst]
          · rw [← hst]
            exact hinv2
        · rename_i hty
          split at h
          · cases h
          · rename_i stP hp2
            split at h
            · rename_i hcol
              rw [Option.some_inj, Prod.mk.injEq] at h
              obtain ⟨hm, hst⟩ := h
              have hfP : stP.sawEnd = false := by
                show ({ stP with err := true } : PState).sawEnd = false
                rw [hst]
                exact hf
              have hfw2 : (cjson_parse_ws s st2).sawEnd = false :=
                flag_back (fun hT => peek_mono s _ stP hp2 hT) hfP
              have hf2 : st2.sawEnd = false :=
                flag_back (fun hT => ws_mono s st2 hT) hfw2
              have hfw : (cjson_parse_ws s st).sawEnd = false :=
                flag_back (fun hT => pop_mono s _ strTok st2 hp1 hT) hf2
              obtain ⟨hwse, hinvw⟩ := ws_ext s t st hfw hinv
              obtain ⟨hp1e, hinv2, _⟩ := pop_ext s t _ strTok st2 hp1 hf2 hinvw
              obtain ⟨hws2e, hinvw2⟩ := ws_ext s t st2 hfw2 hinv2
              obtain ⟨hp2e, hinvP⟩ := peek_ext s t _ stP hp2 hfP hinvw2
              refine ⟨?_, by rw [← hst]; exact hinvP⟩
              rw [cjson_parse_member, hwse, hp1e]
              simp only []
              rw [if_neg hty, hws2e, hp2e]
              simp only []
              rw [if_pos hcol, hm, hst]
            · rename_i hcol
              split at h
              · cases h
              · rename_i tok4 st4 hp3
                split at h
                · cases h
                · rename_i elem st5 h5
                  rw [Option.some_inj, Prod.mk.injEq] at h
                  obtain ⟨hm, hst⟩ := h
                  have hf5 : st5.sawEnd = false := by
                    rw [hst]
                    exact hf
                  have hf4 : st4.sawEnd = false :=
                    flag_back (fun hT =>
                      (parse_mono_all s f).2.2.2.2.2.2.2 st4 elem st5 h5 hT) hf5
                  have hfP : stP.sawEnd = false :=
                    flag_back (fun hT => pop_mono s stP tok4 st4 hp3 hT) hf4
                  have hfw2 : (cjson_parse_ws s st2).sawEnd = false :=
                    flag_back (fun hT => peek_mono s _ stP hp2 hT) hfP
                  have hf2 : st2.sawEnd = false :=
                    flag_back (fun hT => ws_mono s st2 hT) hfw2
                  have hfw : (cjson_parse_ws s st).sawEnd = false :=
                    flag_back (fun hT => pop_mono s _ strTok st2 hp1 hT) hf2
                  obtain ⟨hwse, hinvw⟩ := ws_ext s t st hfw hinv
                  obtain ⟨hp1e, hinv2, hbound⟩ :=
                    pop_ext s t _ strTok st2 hp1 hf2 hinvw
                  obtain ⟨hws2e, hinvw2⟩ := ws_ext s t st2 hfw2 hinv2
                  obtain ⟨hp2e, hinvP⟩ := peek_ext s t _ stP hp2 hfP hinvw2
                  obtain ⟨hp3e, hinv4, _⟩ :=
                    pop_ext s t stP tok4 st4 hp3 hf4 hinvP
                  obtain ⟨h5e, hinv5⟩ := ihE st4 elem st5 h5 hf5 hinv4
                  refine ⟨?_, by rw [← hst]; exact hinv5⟩
                  rw [cjson_parse_member, hwse, hp1e]
                  simp only []
                  rw [if_neg hty, hws2e, hp2e]
                  simp only []
                  rw [if_neg hcol, hp3e]
                  simp only []
                  rw [h5e]
                  simp only []
                  rw [slice2_append s t strTok.start strTok.len hbound]
                  rw [hm, hst]
    · -- parse_array
      intro st res st' h hf hinv
      rw [cjson_parse_array] at h
      split at h
      · cases h
      · rename_i tok1 st1 hp1
        split at h
        · cases h
        · rename_i stP hp2
          split at h
          · rename_i hc
            split at h
            · cases h
            · rename_i e1 st3 h3
              split at h
              · cases h
              · rename_i elems st4 h4
                split at h
                · cases h
                · rename_i stP2 hp5
                  split at h
                  · rename_i hr
                    rw [Option.some_inj, Prod.mk.injEq] at h
                    obtain ⟨hres, hst⟩ := h
                    have hfP2 : stP2.sawEnd = false := by
                      rw [hst]
                      exact hf
                    have hf4 : st4.sawEnd = false :=
                      flag_back (fun hT => peek_mono s st4 stP2 hp5 hT) hfP2
                    have hf3 : st3.sawEnd = false :=
                      flag_back (fun hT =>
                        (parse_mono_all s f).2.2.2.2.2.2.1 _ st3 elems st4
                          h4 hT) hf4
                    have hfP : stP.sawEnd = false :=
                      flag_back (fun hT =>
                        (parse_mono_all s f).2.2.2.2.2.2.2 stP e1 st3 h3 hT)
                        hf3
                    have hfw : (cjson_parse_ws s st1).sawEnd = false :=
                      flag_back (fun hT => peek_mono s _ stP hp2 hT) hfP
                    have hf1 : st1.sawEnd = false :=
                      flag_back (fun hT => ws_mono s st1 hT) hfw
                    obtain ⟨hp1e, hinv1, _⟩ :=
                      pop_ext s t st tok1 st1 hp1 hf1 hinv
                    obtain ⟨hwse, hinvw⟩ := ws_ext s t st1 hfw hinv1
                    obtain ⟨hp2e, hinvP⟩ := peek_ext s t _ stP hp2 hfP hinvw
                    obtain ⟨h3e, hinv3⟩ := ihE stP e1 st3 h3 hf3 hinvP
                    obtain ⟨h4e, hinv4⟩ := ihAL _ st3 elems st4 h4 hf4 hinv3
                    obtain ⟨hp5e, hinvP2⟩ :=
                      peek_ext s t st4 stP2 hp5 hfP2 hinv4
                    refine ⟨?_, by rw [← hst]; exact hinvP2⟩
                    rw [cjson_parse_array, hp1e]
                    simp only []
                    rw [hwse, hp2e]
                    simp only []
                    rw [if_pos hc, h3e]
                    simp only []
                    rw [h4e]
                    simp only []
                    rw [hp5e]
                    simp only []
                    rw [if_pos hr, hres, hst]
                  · rename_i hr
                    split at h
                    · cases h
                    · rename_i tok6 st6 hp6
                      rw [Option.some_inj, Prod.mk.injEq] at h
                      obtain ⟨hres, hst⟩ := h
                      have hf6 : st6.sawEnd = false := by
                        rw [hst]
                        exact hf
                      have hfP2 : stP2.sawEnd = false :=
                        flag_back
                          (fun hT => pop_mono s stP2 tok6 st6 hp6 hT) hf6
                      have hf4 : st4.sawEnd = false :=
                        flag_back (fun hT => peek_mono s st4 stP2 hp5 hT) hfP2
                      have hf3 : st3.sawEnd = false :=
                        flag_back (fun hT =>
                          (parse_mono_all s f).2.2.2.2.2.2.1 _ st3 elems st4
                            h4 hT) hf4
                      have hfP : stP.sawEnd = false :=
                        flag_back (fun hT =>
                          (parse_mono_all s f).2.2.2.2.2.2.2 stP e1 st3 h3
                            hT) hf3
                      have hfw : (cjson_parse_ws s st1).sawEnd = false :=
                        flag_back (fun hT => peek_mono s _ stP hp2 hT) hfP
                      have hf1 : st1.sawEnd = false :=
                        flag_back (fun hT => ws_mono s st1 hT) hfw
                      obtain ⟨hp1e, hinv1, _⟩ :=
                        pop_ext s t st tok1 st1 hp1 hf1 hinv
                      obtain ⟨hwse, hinvw⟩ := ws_ext s t st1 hfw hinv1
                      obtain ⟨hp2e, hinvP⟩ := peek_ext s t _ stP hp2 hfP hinvw
                      obtain ⟨h3e, hinv3⟩ := ihE stP e1 st3 h3 hf3 hinvP
                      obtain ⟨h4e, hinv4⟩ := ihAL _ st3 elems st4 h4 hf4 hinv3
                      obtain ⟨hp5e, hinvP2⟩ :=
                        peek_ext s t st4 stP2 hp5 hfP2 hinv4
                      obtain ⟨hp6e, hinv6, _⟩ :=
                        pop_ext s t stP2 tok6 st6 hp6 hf6 hinvP2
                      refine ⟨?_, by rw [← hst]; exact hinv6⟩
                      rw [cjson_parse_array, hp1e]
                      simp only []
                      rw [hwse, hp2e]
                      simp only []
                      rw [if_pos hc, h3e]
                      simp only []
                      rw [h4e]
                      simp only []
                      rw [hp5e]
                      simp only []
                      rw [if_neg hr, hp6e]
                      simp only []
                      rw [hres, hst]
          · rename_i hc
            split at h
            · cases h
            · rename_i tok3 st3 hp6
              rw [Option.some_inj, Prod.mk.injEq] at h
              obtain ⟨hres, hst⟩ := h
              have hf3 : st3.sawEnd = false := by
                rw [hst]
                exact hf
              have hfP : stP.sawEnd = false :=
                flag_back (fun hT => pop_mono s stP tok3 st3 hp6 hT) hf3
              have hfw : (cjson_parse_ws s st1).sawEnd = false :=
                flag_back (fun hT => peek_mono s _ stP hp2 hT) hfP
              have hf1 : st1.sawEnd = false :=
                flag_back (fun hT => ws_mono s st1 hT) hfw
              obtain ⟨hp1e, hinv1, _⟩ := pop_ext s t st tok1 st1 hp1 hf1 hinv
              obtain ⟨hwse, hinvw⟩ := ws_ext s t st1 hfw hinv1
              obtain ⟨hp2e, hinvP⟩ := peek_ext s t _ stP hp2 hfP hinvw
              obtain ⟨hp6e, hinv3, _⟩ := pop_ext s t stP tok3 st3 hp6 hf3 hinvP
              refine ⟨?_, by rw [← hst]; exact hinv3⟩
              rw [cjson_parse_array, hp1e]
              simp only []
              rw [hwse, hp2e]
              simp only []
              rw [if_neg hc, hp6e]
              simp only []
              rw [hres, hst]
    · -- parse_array_loop
      intro el st el' st' h hf hinv
      rw [cjson_parse_array_loop] at h
      split at h
      · rename_i hErr
        rw [Option.some_inj, Prod.mk.injEq] at h
        obtain ⟨hm, hst⟩ := h
        refine ⟨?_, by rw [← hst]; exact hinv⟩
        rw [cjson_parse_array_loop, if_pos hErr, hm, hst]
      · rename_i hErr
        split at h
        · cases h
        · rename_i stP hp
          split at h
          · rename_i hc
            split at h
            · cases h
            · rename_i tok st1 hpp
              split at h
              · cases h
              · rename_i e2 st2 h2
                have hf2 : st2.sawEnd = false :=
                  flag_back (fun hT =>
                    (parse_mono_all s f).2.2.2.2.2.2.1 _ st2 el' st' h hT) hf
                have hf1 : st1.sawEnd = false :=
                  flag_back (fun hT =>
                    (parse_mono_all s f).2.2.2.2.2.2.2 st1 e2 st2 h2 hT) hf2
                have hfP : stP.sawEnd = false :=
                  flag_back (fun hT => pop_mono s stP tok st1 hpp hT) hf1
                obtain ⟨hpe, hinvP⟩ := peek_ext s t st stP hp hfP hinv
                obtain ⟨hppe, hinv1, _⟩ := pop_ext s t stP tok st1 hpp hf1 hinvP
                obtain ⟨h2e, hinv2⟩ := ihE st1 e2 st2 h2 hf2 hinv1
                obtain ⟨hLe, hinvL⟩ := ihAL _ st2 el' st' h hf hinv2
                refine ⟨?_, hinvL⟩
                rw [cjson_parse_array_loop, if_neg hErr, hpe]
                simp only []
                rw [if_pos hc, hppe]
                simp only []
                rw [h2e]
                simp only []
                exact hLe
          · rename_i hc
            rw [Option.some_inj, Prod.mk.injEq] at h
            obtain ⟨hm, hst⟩ := h
            have hfP : stP.sawEnd = false := by
              rw [hst]
              exact hf
            obtain ⟨hpe, hinvP⟩ := peek_ext s t st stP hp hfP hinv
            refine ⟨?_, by rw [← hst]; exact hinvP⟩
            rw [cjson_parse_array_loop, if_neg hErr, hpe]
            simp only []
            rw [if_neg hc, hm, hst]
    · -- parse_element
      intro st res st' h hf hinv
      rw [cjson_parse_element] at h
      split at h
      · cases h
      · rename_i v1 st1 h1
        rw [Option.some_inj, Prod.mk.injEq] at h
        obtain ⟨hres, hst⟩ := h
        have hfw1 : (cjson_parse_ws s st1).sawEnd = false := by
          rw [hst]
          exact hf
        have hf1 : st1.sawEnd = false :=
          flag_back (fun hT => ws_mono s st1 hT) hfw1
        have hfw : (cjson_parse_ws s st).sawEnd = false :=
          flag_back
            (fun hT => (parse_mono_all s f).1 _ v1 st1 h1 hT) hf1
        obtain ⟨hwse, hinvw⟩ := ws_ext s t st hfw hinv
        obtain ⟨h1e, hinv1⟩ := ihV _ v1 st1 h1 hf1 hinvw
        obtain ⟨hws1e, hinvw1⟩ := ws_ext s t st1 hfw1 hinv1
        refine ⟨?_, by rw [← hst]; exact hinvw1⟩
        rw [cjson_parse_element, hwse, h1e]
        simp only []
        rw [hws1e, hres, hst]

end CJson

namespace CJson

/-- **C8** (counterexample).  The claim is false as stated: `12` is a
proper prefix of `123` and is itself a complete valid JSON element, yet
`cjson_parse_str "123"` returns the integer `123`, not the element `12`
parsed from that prefix — the lexer's number scan consumes the trailing
digits instead of ignoring them. -/
theorem parse_prefix_counterexample :
    cjson_parse_str ['1', '2'] 20
      = some (some (CElem.mk .tINTEGER (.vInt 12))) ∧
    cjson_parse_str ['1', '2', '3'] 20
      = some (some (CElem.mk .tINTEGER (.vInt 123))) ∧
    cjson_parse_str ['1', '2', '3'] 20 ≠ cjson_parse_str ['1', '2'] 20 := by
  refine ⟨by with_unfolding_all rfl, by with_unfolding_all rfl, ?_⟩
  intro hcontr
  have h1 : cjson_parse_str ['1', '2', '3'] 20
      = some (some (CElem.mk .tINTEGER (.vInt 123))) := by
    with_unfolding_all rfl
  have h2 : cjson_parse_str ['1', '2'] 20
      = some (some (CElem.mk .tINTEGER (.vInt 12))) := by
    with_unfolding_all rfl
  rw [h1, h2] at hcontr
  injection hcontr with hcontr
  injection hcontr with hcontr
  injection hcontr with h3 h4
  injection h4 with h5
  exact absurd h5 (by decide)

/-- **C8** (corrected).  Trailing bytes after a parsed element are ignored
only when the parse of the prefix was decided without ever inspecting the
input's end: if `cjson_parse_element` on `p` (from a fresh lexer) returns
with the terminator-inspection flag still clear, then appending any bytes
`t` leaves the result of `cjson_parse_str` unchanged — the parser never
looks past the element (and its surrounding whitespace) it consumed.  The
unqualified claim is refuted by `parse_prefix_counterexample`: when the
scan that delimited the last token had to inspect the input's end (as for
`"12"`), appended bytes extend that token instead of being ignored. -/
theorem parse_ignores_trailing_bytes (p t : Chars) (fuel : Nat)
    (e : Option CElem) (st : PState)
    (h : cjson_parse_element p fuel initPState = some (e, st))
    (hend : st.sawEnd = false) :
    cjson_parse_str p fuel = some (if st.err then none else e) ∧
    cjson_parse_str (p ++ t) fuel = some (if st.err then none else e) := by
  have hext := (parse_ext_all p t fuel).2.2.2.2.2.2.2 initPState e st h hend
    (inv_init p)
  constructor
  · rw [cjson_parse_str, h]
  · rw [cjson_parse_str, hext.1]

/-- Witness for the corrected C8: `"1 x"` parses to the integer `1`
without inspecting the input's end (the space stops the number scan, the
`x` stops the whitespace scan), so appending `"+2"` does not change the
result. -/
theorem parse_ignores_trailing_bytes_witness :
    cjson_parse_str ['1', ' ', 'x'] 20
      = some (some (CElem.mk .tINTEGER (.vInt 1))) ∧
    cjson_parse_str (['1', ' ', 'x'] ++ ['+', '2']) 20
      = some (some (CElem.mk .tINTEGER (.vInt 1))) :=
  parse_ignores_trailing_bytes ['1', ' ', 'x'] ['+', '2'] 20
    (some (CElem.mk .tINTEGER (.vInt 1)))
    ⟨2, .NONE, 0, 1, 1, 0, false, false⟩
    (by with_unfolding_all rfl) rfl

end CJson
